import Mathlib

/-!
Verification of the normalization core of `jsonl-normalizer`
(`src/jsonl_normalizer/core.py`) against its specification.

The development shallowly embeds the core as pure Lean functions:

* JSON values are the inductive type `Json`.  JSON numbers are modelled as
  integers; inputs containing fractional or exponent numerals (Python floats)
  and the non-standard `NaN`/`Infinity` literals lie outside the model.
* Text sources and sinks are modelled as the strings read from / written to
  them, so `normalize_jsonl` maps the input text and the `dedupe` flag to the
  output text, the discard text and the returned statistics.
* Python string primitives (`str.strip`, `str.splitlines`), the `json` module
  (`json.loads`, `json.dumps` with its separator and `ensure_ascii=False`
  conventions) and `hashlib.sha256` are embedded executably below; `\uXXXX`
  escapes denoting lone UTF-16 surrogates are rejected by the embedded decoder
  (Lean characters are Unicode scalar values).
-/

set_option maxRecDepth 100000

namespace JsonlNormalizer

/-! ## Python string primitives -/

/-- Whitespace characters stripped by Python `str.strip()`
(CPython `_PyUnicode_IsWhitespace`). -/
def pyIsSpace (c : Char) : Bool :=
  c.toNat = 0x09 ∨ c.toNat = 0x0A ∨ c.toNat = 0x0B ∨ c.toNat = 0x0C ∨
  c.toNat = 0x0D ∨ c.toNat = 0x1C ∨ c.toNat = 0x1D ∨ c.toNat = 0x1E ∨
  c.toNat = 0x1F ∨ c.toNat = 0x20 ∨ c.toNat = 0x85 ∨ c.toNat = 0xA0 ∨
  c.toNat = 0x1680 ∨ (0x2000 ≤ c.toNat ∧ c.toNat ≤ 0x200A) ∨
  c.toNat = 0x2028 ∨ c.toNat = 0x2029 ∨ c.toNat = 0x202F ∨
  c.toNat = 0x205F ∨ c.toNat = 0x3000

/-- Python `str.strip()` on a character list. -/
def pyStripChars (cs : List Char) : List Char :=
  ((cs.dropWhile pyIsSpace).reverse.dropWhile pyIsSpace).reverse

/-- Python `str.strip()`. -/
def pyStrip (s : String) : String :=
  String.mk (pyStripChars s.data)

/-- Line boundary characters of Python `str.splitlines()`
(besides the combined boundary `"\r\n"`). -/
def pyLineBreak (c : Char) : Bool :=
  c.toNat = 0x0A ∨ c.toNat = 0x0B ∨ c.toNat = 0x0C ∨ c.toNat = 0x0D ∨
  c.toNat = 0x1C ∨ c.toNat = 0x1D ∨ c.toNat = 0x1E ∨ c.toNat = 0x85 ∨
  c.toNat = 0x2028 ∨ c.toNat = 0x2029

/-- Worker for `pySplitlines`; `acc` holds the current line reversed. -/
def pySplitlinesAux : List Char → List Char → List String
  | [], acc => if acc.isEmpty then [] else [String.mk acc.reverse]
  | '\r' :: '\n' :: rest, acc => String.mk acc.reverse :: pySplitlinesAux rest []
  | c :: rest, acc =>
      if pyLineBreak c then String.mk acc.reverse :: pySplitlinesAux rest []
      else pySplitlinesAux rest (c :: acc)

/-- Python `str.splitlines()` (no trailing empty line for a trailing
terminator, `"\r\n"` counted as a single boundary). -/
def pySplitlines (s : String) : List String :=
  pySplitlinesAux s.data []

/-! ## JSON values -/

/-- A parsed JSON value as produced by Python's `json.loads`: `obj` is a
Python `dict` (insertion-ordered association list with pairwise distinct
keys when produced by the parser), `arr` a `list`, `num` an `int`. -/
inductive Json where
  | null
  | bool (b : Bool)
  | num (n : Int)
  | str (s : String)
  | arr (xs : List Json)
  | obj (fs : List (String × Json))

/-- Python `type(value).__name__` for a parsed JSON value. -/
def typeName : Json → String
  | .null => "NoneType"
  | .bool _ => "bool"
  | .num _ => "int"
  | .str _ => "str"
  | .arr _ => "list"
  | .obj _ => "dict"

/-- `isinstance(value, dict)`. -/
def isDict : Json → Bool
  | .obj _ => true
  | _ => false

/-! ## Serialization (`json.dump` / `json.dumps`) -/

/-- Decimal digit characters. -/
def digitChar : Nat → Char
  | 0 => '0' | 1 => '1' | 2 => '2' | 3 => '3' | 4 => '4'
  | 5 => '5' | 6 => '6' | 7 => '7' | 8 => '8' | 9 => '9'
  | _ + 10 => '0'

/-- Lowercase hexadecimal digit characters. -/
def hexChar : Nat → Char
  | 0 => '0' | 1 => '1' | 2 => '2' | 3 => '3' | 4 => '4'
  | 5 => '5' | 6 => '6' | 7 => '7' | 8 => '8' | 9 => '9'
  | 10 => 'a' | 11 => 'b' | 12 => 'c' | 13 => 'd' | 14 => 'e' | 15 => 'f'
  | _ + 16 => '0'

/-- Decimal digits of a natural number, most significant first
(`fuel` bounds the recursion; `fuel = n + 1` always suffices). -/
def natToDecAux : Nat → Nat → List Char → List Char
  | 0, _, acc => acc
  | fuel + 1, n, acc =>
      if n < 10 then digitChar n :: acc
      else natToDecAux fuel (n / 10) (digitChar (n % 10) :: acc)

/-- Python `str` of a non-negative integer. -/
def natToDec (n : Nat) : List Char := natToDecAux (n + 1) n []

/-- Python `str(int)`. -/
def intToDec : Int → List Char
  | .ofNat m => natToDec m
  | .negSucc m => '-' :: natToDec (m + 1)

/-- The opening brace character `U+007B`. -/
def lbrace : Char := Char.ofNat 123

/-- The closing brace character `U+007D`. -/
def rbrace : Char := Char.ofNat 125

/-- How `json.dumps` with `ensure_ascii=False` renders one string
character: `"` and `\` are escaped, control characters below `U+0020`
use the short escapes `\b \t \n \f \r` or `\u00xx`, and every other
character (non-ASCII included) is emitted verbatim. -/
def escapeChar (c : Char) : List Char :=
  if c = '"' then ['\\', '"']
  else if c = '\\' then ['\\', '\\']
  else if c = '\n' then ['\\', 'n']
  else if c = '\t' then ['\\', 't']
  else if c = '\r' then ['\\', 'r']
  else if c.toNat = 0x08 then ['\\', 'b']
  else if c.toNat = 0x0C then ['\\', 'f']
  else if c.toNat < 0x20 then
    ['\\', 'u', '0', '0', hexChar (c.toNat / 16), hexChar (c.toNat % 16)]
  else [c]

/-- A JSON string literal with quotes, as rendered by `json.dumps`. -/
def encodeString (s : String) : List Char :=
  '"' :: s.data.flatMap escapeChar ++ ['"']

mutual

/-- `json.dumps(v)` with item separator `isep` and key separator `ksep`
(`sort_keys=False`, `ensure_ascii=False`). -/
def dumps (isep ksep : List Char) : Json → List Char
  | .null => "null".data
  | .bool b => if b then "true".data else "false".data
  | .num n => intToDec n
  | .str s => encodeString s
  | .arr xs => '[' :: List.intercalate isep (dumpsList isep ksep xs) ++ [']']
  | .obj fs => lbrace :: List.intercalate isep (dumpsFields isep ksep fs) ++ [rbrace]

/-- Renders each array element. -/
def dumpsList (isep ksep : List Char) : List Json → List (List Char)
  | [] => []
  | x :: xs => dumps isep ksep x :: dumpsList isep ksep xs

/-- Renders each `key: value` member. -/
def dumpsFields (isep ksep : List Char) : List (String × Json) → List (List Char)
  | [] => []
  | (k, v) :: fs => (encodeString k ++ ksep ++ dumps isep ksep v) :: dumpsFields isep ksep fs

end

/-- `json.dump(rec, fout, ensure_ascii=False)`: Python's default
separators `", "` and `": "`. -/
def serializeOut (v : Json) : List Char :=
  dumps ", ".data ": ".data v

/-- Lexicographic comparison of character lists by code point. -/
def charListLt : List Char → List Char → Bool
  | [], [] => false
  | [], _ :: _ => true
  | _ :: _, [] => false
  | a :: as, b :: bs =>
      if a.toNat < b.toNat then true
      else if b.toNat < a.toNat then false
      else charListLt as bs

/-- Python string comparison `a < b` (lexicographic by code point). -/
def pyStrLt (a b : String) : Bool := charListLt a.data b.data

/-- Stable insertion into a key-sorted field list (used to model the
sorting performed by `json.dumps(..., sort_keys=True)`; Python's `sorted`
is a stable sort by key). -/
def insertField (kv : String × Json) : List (String × Json) → List (String × Json)
  | [] => [kv]
  | p :: ps => if pyStrLt p.1 kv.1 then p :: insertField kv ps else kv :: p :: ps

/-- Stable sort of the fields of an object by key (Python
`sorted(d.items())` on distinct keys). -/
def sortFields : List (String × Json) → List (String × Json)
  | [] => []
  | kv :: ps => insertField kv (sortFields ps)

mutual

/-- The canonical form of a value: object keys sorted (stably) at every
nesting level.  `json.dumps(v, sort_keys=True)` renders exactly
`canonValue v` in field order. -/
def canonValue : Json → Json
  | .null => .null
  | .bool b => .bool b
  | .num n => .num n
  | .str s => .str s
  | .arr xs => .arr (canonList xs)
  | .obj fs => .obj (sortFields (canonFields fs))

/-- Canonicalizes each array element. -/
def canonList : List Json → List Json
  | [] => []
  | x :: xs => canonValue x :: canonList xs

/-- Canonicalizes each field value, keeping field order. -/
def canonFields : List (String × Json) → List (String × Json)
  | [] => []
  | (k, v) :: fs => (k, canonValue v) :: canonFields fs

end

/-- The canonical serialization used by `stable_hash`:
`json.dumps(obj, sort_keys=True, separators=(",", ":"), ensure_ascii=False)`
(keys sorted at every nesting level, no insignificant whitespace,
non-ASCII characters kept as-is). -/
def canonicalDumps (v : Json) : List Char :=
  dumps ",".data ":".data (canonValue v)

/-! ## UTF-8 and SHA-256 (`canonical.encode("utf-8")`, `hashlib.sha256`) -/

/-- UTF-8 encoding of one character, as a list of bytes. -/
def utf8EncodeChar (c : Char) : List Nat :=
  let n := c.toNat
  if n < 0x80 then [n]
  else if n < 0x800 then [0xC0 + n / 64, 0x80 + n % 64]
  else if n < 0x10000 then [0xE0 + n / 4096, 0x80 + n / 64 % 64, 0x80 + n % 64]
  else [0xF0 + n / 262144, 0x80 + n / 4096 % 64, 0x80 + n / 64 % 64, 0x80 + n % 64]

/-- UTF-8 encoding of a character list. -/
def utf8Encode (cs : List Char) : List Nat :=
  cs.flatMap utf8EncodeChar

/-- Truncation to a 32-bit word. -/
def w32 (n : Nat) : Nat := n % 4294967296

/-- Right rotation of a 32-bit word by `k` bits. -/
def rotr32 (k n : Nat) : Nat := w32 ((n >>> k) + (n <<< (32 - k)))

/-- The SHA-256 working state: eight 32-bit words. -/
structure Hash8 where
  a : Nat
  b : Nat
  c : Nat
  d : Nat
  e : Nat
  f : Nat
  g : Nat
  h : Nat
deriving DecidableEq

/-- SHA-256 initial hash value. -/
def sha256Init : Hash8 :=
  ⟨0x6a09e667, 0xbb67ae85, 0x3c6ef372, 0xa54ff53a,
   0x510e527f, 0x9b05688c, 0x1f83d9ab, 0x5be0cd19⟩

/-- SHA-256 round constants. -/
def sha256K : List Nat :=
  [1116352408, 1899447441, 3049323471, 3921009573,
   961987163, 1508970993, 2453635748, 2870763221,
   3624381080, 310598401, 607225278, 1426881987,
   1925078388, 2162078206, 2614888103, 3248222580,
   3835390401, 4022224774, 264347078, 604807628,
   770255983, 1249150122, 1555081692, 1996064986,
   2554220882, 2821834349, 2952996808, 3210313671,
   3336571891, 3584528711, 113926993, 338241895,
   666307205, 773529912, 1294757372, 1396182291,
   1695183700, 1986661051, 2177026350, 2456956037,
   2730485921, 2820302411, 3259730800, 3345764771,
   3516065817, 3600352804, 4094571909, 275423344,
   430227734, 506948616, 659060556, 883997877,
   958139571, 1322822218, 1537002063, 1747873779,
   1955562222, 2024104815, 2227730452, 2361852424,
   2428436474, 2756734187, 3204031479, 3329325298]

/-- Big-endian 32-bit words from a byte list (4 bytes per word). -/
def bytesToWords : List Nat → List Nat
  | b0 :: b1 :: b2 :: b3 :: rest =>
      (b0 * 16777216 + b1 * 65536 + b2 * 256 + b3) :: bytesToWords rest
  | _ => []

/-- Message-schedule extension: `acc` holds the schedule so far, most
recent word first; `k` words are still to be produced. -/
def scheduleAux : Nat → List Nat → List Nat
  | 0, acc => acc.reverse
  | k + 1, acc =>
      let w2 := acc.getD 1 0
      let w7 := acc.getD 6 0
      let w15 := acc.getD 14 0
      let w16 := acc.getD 15 0
      let s0 := (rotr32 7 w15) ^^^ (rotr32 18 w15) ^^^ (w15 >>> 3)
      let s1 := (rotr32 17 w2) ^^^ (rotr32 19 w2) ^^^ (w2 >>> 10)
      scheduleAux k (w32 (w16 + s0 + w7 + s1) :: acc)

/-- The 64-word message schedule of one 16-word block. -/
def sha256Schedule (block : List Nat) : List Nat :=
  scheduleAux 48 block.reverse

/-- One SHA-256 compression round. -/
def sha256Round (st : Hash8) (kw : Nat × Nat) : Hash8 :=
  let S1 := (rotr32 6 st.e) ^^^ (rotr32 11 st.e) ^^^ (rotr32 25 st.e)
  let ch := (st.e &&& st.f) ^^^ ((4294967295 - st.e) &&& st.g)
  let temp1 := w32 (st.h + S1 + ch + kw.1 + kw.2)
  let S0 := (rotr32 2 st.a) ^^^ (rotr32 13 st.a) ^^^ (rotr32 22 st.a)
  let maj := (st.a &&& st.b) ^^^ (st.a &&& st.c) ^^^ (st.b &&& st.c)
  let temp2 := w32 (S0 + maj)
  ⟨w32 (temp1 + temp2), st.a, st.b, st.c, w32 (st.d + temp1), st.e, st.f, st.g⟩

/-- Processes one 64-byte block. -/
def sha256Block (h0 : Hash8) (block : List Nat) : Hash8 :=
  let ws := sha256Schedule (bytesToWords block)
  let st := (sha256K.zip ws).foldl sha256Round h0
  ⟨w32 (h0.a + st.a), w32 (h0.b + st.b), w32 (h0.c + st.c), w32 (h0.d + st.d),
   w32 (h0.e + st.e), w32 (h0.f + st.f), w32 (h0.g + st.g), w32 (h0.h + st.h)⟩

/-- Splits a byte list into 64-byte chunks (`fuel` bounds the recursion). -/
def chunks64 : Nat → List Nat → List (List Nat)
  | 0, _ => []
  | _, [] => []
  | fuel + 1, bs => bs.take 64 :: chunks64 fuel (bs.drop 64)

/-- SHA-256 padding: `0x80`, zeros to 56 mod 64, 8-byte big-endian bit length. -/
def sha256Pad (msg : List Nat) : List Nat :=
  let len := msg.length
  let zeros := (64 + 56 - (len + 1) % 64) % 64
  let bits := len * 8
  msg ++ 0x80 :: List.replicate zeros 0 ++
    [bits >>> 56 % 256, bits >>> 48 % 256, bits >>> 40 % 256, bits >>> 32 % 256,
     bits >>> 24 % 256, bits >>> 16 % 256, bits >>> 8 % 256, bits % 256]

/-- Big-endian bytes of one 32-bit word. -/
def wordToBytes (w : Nat) : List Nat :=
  [w >>> 24 % 256, w >>> 16 % 256, w >>> 8 % 256, w % 256]

/-- SHA-256 digest (32 bytes) of a byte list. -/
def sha256 (msg : List Nat) : List Nat :=
  let padded := sha256Pad msg
  let fin := (chunks64 (padded.length + 1) padded).foldl sha256Block sha256Init
  wordToBytes fin.a ++ wordToBytes fin.b ++ wordToBytes fin.c ++ wordToBytes fin.d ++
    wordToBytes fin.e ++ wordToBytes fin.f ++ wordToBytes fin.g ++ wordToBytes fin.h

/-- Lowercase hexadecimal rendering of a byte list (`hexdigest()`). -/
def bytesToHex (bs : List Nat) : List Char :=
  bs.flatMap (fun b => [hexChar (b / 16 % 16), hexChar (b % 16)])

/-- `stable_hash` from `core.py`: the lowercase hexadecimal SHA-256 digest
of the canonical serialization (keys sorted, compact separators,
`ensure_ascii=False`), UTF-8 encoded. -/
def stable_hash (obj : Json) : String :=
  String.mk (bytesToHex (sha256 (utf8Encode (canonicalDumps obj))))

/-- The sixteen lowercase hexadecimal digit characters. -/
def lowercaseHexDigits : List Char :=
  "0123456789abcdef".data

/-! ## Parsing (`json.loads`)

The decoder below mirrors Python's strict `json` decoder: JSON whitespace
(`空白` = space, tab, newline, carriage return) between tokens, strings with
the standard escapes and raw characters from `U+0020` up, objects built by
dict insertion (a repeated key keeps its first position and the last value),
and integer numerals.  Fractional/exponent numerals and `NaN`/`Infinity`
(Python floats) and `\uXXXX` lone surrogates are outside the model. -/

/-- JSON whitespace (Python `json`'s `[ \t\n\r]*`). -/
def jsonWsChar (c : Char) : Bool :=
  c = ' ' ∨ c = '\t' ∨ c = '\n' ∨ c = '\r'

/-- Skips JSON whitespace. -/
def skipWs (cs : List Char) : List Char :=
  cs.dropWhile jsonWsChar

/-- The value of a hexadecimal digit character, if any. -/
def hexVal (c : Char) : Option Nat :=
  if '0' ≤ c ∧ c ≤ '9' then some (c.toNat - 48)
  else if 'a' ≤ c ∧ c ≤ 'f' then some (c.toNat - 87)
  else if 'A' ≤ c ∧ c ≤ 'F' then some (c.toNat - 55)
  else none

/-- Four hexadecimal digits (`\uXXXX` payload). -/
def hex4 : List Char → Option (Nat × List Char)
  | h1 :: h2 :: h3 :: h4 :: rest =>
    match hexVal h1, hexVal h2, hexVal h3, hexVal h4 with
    | some d1, some d2, some d3, some d4 =>
        some (d1 * 4096 + d2 * 256 + d3 * 16 + d4, rest)
    | _, _, _, _ => none
  | _ => none

/-- Decodes a `\uXXXX` escape payload, combining surrogate pairs
(Python keeps lone surrogates in the decoded string; the model rejects
them, Lean characters being Unicode scalar values). -/
def decodeUEscape (cs : List Char) : Option (Char × List Char) :=
  match hex4 cs with
  | none => none
  | some (n, rest) =>
    if n < 0xD800 ∨ 0xE000 ≤ n then some (Char.ofNat n, rest)
    else if n < 0xDC00 then
      match rest with
      | b1 :: b2 :: rest2 =>
        if b1 = '\\' ∧ b2 = 'u' then
          match hex4 rest2 with
          | some (m, rest3) =>
            if 0xDC00 ≤ m ∧ m < 0xE000 then
              some (Char.ofNat (0x10000 + (n - 0xD800) * 1024 + (m - 0xDC00)), rest3)
            else none
          | none => none
        else none
      | _ => none
    else none

/-- Decodes one backslash escape (the backslash already consumed):
`\" \\ \/ \b \f \n \r \t` and `\uXXXX`. -/
def decodeEscape : List Char → Option (Char × List Char)
  | [] => none
  | e :: rest =>
    if e = '"' then some ('"', rest)
    else if e = '\\' then some ('\\', rest)
    else if e = '/' then some ('/', rest)
    else if e = 'b' then some (Char.ofNat 0x08, rest)
    else if e = 'f' then some (Char.ofNat 0x0C, rest)
    else if e = 'n' then some ('\n', rest)
    else if e = 'r' then some ('\r', rest)
    else if e = 't' then some ('\t', rest)
    else if e = 'u' then decodeUEscape rest
    else none

/-- Scans a string body after the opening quote (`py_scanstring`,
`strict=True`): raw characters must be `U+0020` or above, escapes via
`decodeEscape`.  `acc` holds the scanned characters reversed; returns the
string and the input after the closing quote.  `fuel` bounds the
recursion; one character is decoded per step, so fuel `length + 1` never
runs out. -/
def parseStringBody : Nat → List Char → List Char → Option (String × List Char)
  | 0, _, _ => none
  | _ + 1, [], _ => none
  | fuel + 1, c :: rest, acc =>
    if c = '"' then some (String.mk acc.reverse, rest)
    else if c = '\\' then
      match decodeEscape rest with
      | some (d, rest2) => parseStringBody fuel rest2 (d :: acc)
      | none => none
    else if c.toNat < 0x20 then none
    else parseStringBody fuel rest (c :: acc)

/-- Decimal digit test. -/
def isDigitChar (c : Char) : Bool :=
  '0' ≤ c ∧ c ≤ '9'

/-- Numeric value of a decimal digit list. -/
def digitsVal (ds : List Char) : Nat :=
  ds.foldl (fun a c => a * 10 + (c.toNat - 48)) 0

/-- Scans the digit part of an integer numeral (`-?(0|[1-9][0-9]*)`,
mirroring the integer part of Python `json`'s `NUMBER_RE`; after a leading
`0` no further digits are consumed; `neg` records a consumed leading minus
sign). -/
def parseIntDigits (neg : Bool) (cs1 : List Char) : Option (Int × List Char) :=
  match cs1 with
  | c :: rest =>
    if c = '0' then some (0, rest)
    else if isDigitChar c then
      let ds := rest.takeWhile isDigitChar
      let v : Int := Int.ofNat (digitsVal (c :: ds))
      some (if neg then -v else v, rest.dropWhile isDigitChar)
    else none
  | [] => none

def parseIntToken (cs : List Char) : Option (Int × List Char) :=
  match cs with
  | c :: r => if c = '-' then parseIntDigits true r else parseIntDigits false (c :: r)
  | [] => none

/-- Python dict insertion `d[k] = v`: a present key keeps its position and
takes the new value, a new key is appended. -/
def upsert (fs : List (String × Json)) (k : String) (v : Json) : List (String × Json) :=
  if fs.any (fun p => p.1 = k) then
    fs.map (fun p => if p.1 = k then (k, v) else p)
  else fs ++ [(k, v)]

mutual

/-- Scans one JSON value (`fuel`-bounded; `length + 1` fuel always
suffices).  Skips leading JSON whitespace, consumes exactly the value. -/
def parseValue : Nat → List Char → Option (Json × List Char)
  | 0, _ => none
  | fuel + 1, cs =>
    match skipWs cs with
    | [] => none
    | c :: rest =>
      if c = lbrace then parseObjStart fuel rest
      else if c = '[' then
        match skipWs rest with
        | c2 :: rest2 =>
          if c2 = ']' then some (.arr [], rest2)
          else parseElems fuel (c2 :: rest2) []
        | [] => none
      else if c = '"' then
        match parseStringBody (rest.length + 1) rest [] with
        | some (s, r) => some (.str s, r)
        | none => none
      else if c = 't' then
        match rest with
        | 'r' :: 'u' :: 'e' :: r => some (.bool true, r)
        | _ => none
      else if c = 'f' then
        match rest with
        | 'a' :: 'l' :: 's' :: 'e' :: r => some (.bool false, r)
        | _ => none
      else if c = 'n' then
        match rest with
        | 'u' :: 'l' :: 'l' :: r => some (.null, r)
        | _ => none
      else
        match parseIntToken (c :: rest) with
        | some (n, r) => some (.num n, r)
        | none => none

/-- Scans an object from just after `{`: either `}` (empty) or the first
member. -/
def parseObjStart : Nat → List Char → Option (Json × List Char)
  | 0, _ => none
  | fuel + 1, cs =>
    match skipWs cs with
    | c :: rest =>
      if c = rbrace then some (.obj [], rest)
      else if c = '"' then parseMembers fuel rest []
      else none
    | [] => none

/-- Scans members from just after a key's opening quote; `acc` holds the
dict built so far. -/
def parseMembers : Nat → List Char → List (String × Json) → Option (Json × List Char)
  | 0, _, _ => none
  | fuel + 1, cs, acc =>
    match parseStringBody (cs.length + 1) cs [] with
    | none => none
    | some (k, r1) =>
      match skipWs r1 with
      | ':' :: r2 =>
        match parseValue fuel r2 with
        | none => none
        | some (v, r3) =>
          let acc2 := upsert acc k v
          match skipWs r3 with
          | ',' :: r4 =>
            match skipWs r4 with
            | '"' :: r5 => parseMembers fuel r5 acc2
            | _ => none
          | c :: r4 =>
            if c = rbrace then some (.obj acc2, r4) else none
          | [] => none
      | _ => none

/-- Scans array elements from the first element on; `acc` holds the
elements so far, reversed. -/
def parseElems : Nat → List Char → List Json → Option (Json × List Char)
  | 0, _, _ => none
  | fuel + 1, cs, acc =>
    match parseValue fuel cs with
    | none => none
    | some (v, r1) =>
      match skipWs r1 with
      | ',' :: r2 => parseElems fuel r2 (v :: acc)
      | ']' :: r2 => some (.arr (v :: acc).reverse, r2)
      | _ => none

end

/-- `json.loads`: scan one document, then only whitespace may remain
(otherwise Python raises "Extra data"). -/
def json_loads (s : String) : Option Json :=
  match parseValue (s.data.length + 1) s.data with
  | some (v, rest) => if (skipWs rest).isEmpty then some v else none
  | none => none

/-! ## The normalization core (`core.py`) -/

/-- Summary statistics for a normalization run (`NormalizationStats`). -/
structure NormalizationStats where
  normalized_seen : Nat := 0
  written : Nat := 0
  duplicates_skipped : Nat := 0
  discarded_count : Nat := 0
deriving DecidableEq

/-- The discard record appended for a non-dict element of a top-level
list (key order as in the Python dict literal). -/
def elemDiscard (lineno : Nat) (idx : Nat) (item : Json) : Json :=
  .obj [("line", .num lineno), ("index", .num idx), ("type", .str (typeName item)),
        ("value", item), ("reason", .str "non-dict element in list")]

/-- The discard record appended for a non-dict, non-list top-level value. -/
def topDiscard (lineno : Nat) (v : Json) : Json :=
  .obj [("line", .num lineno), ("type", .str (typeName v)),
        ("value", v), ("reason", .str "non-dict top-level value")]

/-- Models `repr(e)` for the `json.JSONDecodeError` raised on a line: the
exact diagnostic text comes from Python's `json` standard library, outside
this repository; the model only records a diagnostic string derived from
the offending text. -/
def decodeErrorRepr (raw : String) : String :=
  "JSONDecodeError: " ++ raw

/-- The discard record appended when a line fails to decode
(key order as in the Python dict literal: line, raw, error, reason). -/
def decodeErrorDiscard (lineno : Nat) (raw : String) : Json :=
  .obj [("line", .num lineno), ("raw", .str raw),
        ("error", .str (decodeErrorRepr raw)), ("reason", .str "json_decode_error")]

/-- Worker for the top-level `list` case of `normalize_line`: walks
`enumerate(obj)` keeping dict elements and logging the others. -/
def normalizeElems (lineno : Nat) : Nat → List Json → List Json → List Json × List Json
  | _, [], discarded => ([], discarded)
  | idx, item :: rest, discarded =>
    match item with
    | .obj fs =>
      let (out, disc) := normalizeElems lineno (idx + 1) rest discarded
      (Json.obj fs :: out, disc)
    | _ => normalizeElems lineno (idx + 1) rest (discarded ++ [elemDiscard lineno idx item])

/-- `normalize_line` from `core.py`: a dict is one record; a list keeps its
dict elements and logs the rest; anything else is discarded.  The Python
function mutates its `discarded` argument; the model returns the grown
list alongside the records. -/
def normalize_line (obj : Json) (lineno : Nat) (discarded : List Json) :
    List Json × List Json :=
  match obj with
  | .obj fs => ([Json.obj fs], discarded)
  | .arr xs => normalizeElems lineno 0 xs discarded
  | v => ([], discarded ++ [topDiscard lineno v])

/-- One iteration of the line-mode loop: skip blank lines, log decode
failures, classify decoded values. -/
def processLine (st : List Json × List Json) (nl : Nat × String) :
    List Json × List Json :=
  let (records, discarded) := st
  let line := pyStrip nl.2
  if line.isEmpty then (records, discarded)
  else
    match json_loads line with
    | none => (records, discarded ++ [decodeErrorDiscard nl.1 line])
    | some v =>
      let (out, disc) := normalize_line v nl.1 discarded
      (records ++ out, disc)

/-- The line-mode fallback loop over `enumerate(content.splitlines(), start=1)`. -/
def processLines (lines : List (Nat × String)) : List Json × List Json :=
  lines.foldl processLine ([], [])

/-- The read-and-classify phase of `normalize_jsonl`: empty input yields
nothing; otherwise try the whole buffer as one classic JSON document
(classified once with line number 1) and fall back to line mode on a
decode error.  Returns (normalized records, discard list). -/
def normalizePhase (content : String) : List Json × List Json :=
  if (pyStrip content).isEmpty then ([], [])
  else
    match json_loads content with
    | some obj => normalize_line obj 1 []
    | none => processLines ((pySplitlines content).enumFrom 1)

/-- The write loop of `normalize_jsonl` over the classified records:
counts every record, optionally dedupes on `stable_hash` against the
run-scoped set `seen`, and emits one `json.dump` line per surviving
record.  Returns (output text, normalized_seen, written, duplicates_skipped). -/
def writeLoop (dedupe : Bool) : List Json → List String → List Char × Nat × Nat × Nat
  | [], _ => ([], 0, 0, 0)
  | rec :: rest, seen =>
    if dedupe then
      let h := stable_hash rec
      if h ∈ seen then
        let (out, ns, w, d) := writeLoop dedupe rest seen
        (out, ns + 1, w, d + 1)
      else
        let (out, ns, w, d) := writeLoop dedupe rest (h :: seen)
        (serializeOut rec ++ '\n' :: out, ns + 1, w + 1, d)
    else
      let (out, ns, w, d) := writeLoop dedupe rest seen
      (serializeOut rec ++ '\n' :: out, ns + 1, w + 1, d)

/-- The result of one `normalize_jsonl` call: the text written to the
output sink, the text written to the discard sink, and the returned stats. -/
structure NormalizeResult where
  output : String
  discarded_output : String
  stats : NormalizationStats
deriving DecidableEq

/-- `normalize_jsonl` from `core.py`, over the input text and the `dedupe`
flag (paths/streams and the encoding argument are the I/O plumbing outside
the model; the sinks receive the returned texts).  The stats, the discard
buffer and the dedup set are created fresh at every call. -/
def normalize_jsonl (content : String) (dedupe : Bool) : NormalizeResult :=
  let (normalized_records, discarded) := normalizePhase content
  let (out, ns, w, d) := writeLoop dedupe normalized_records []
  { output := String.mk out
    discarded_output := String.mk (discarded.flatMap (fun item => serializeOut item ++ ['\n']))
    stats := { normalized_seen := ns, written := w, duplicates_skipped := d,
               discarded_count := discarded.length } }

/-! ## Specification-side functions used by the theorems -/

/-- The records a run writes, in order: the write loop's survivors. -/
def writtenRecords (dedupe : Bool) : List Json → List String → List Json
  | [], _ => []
  | rec :: rest, seen =>
    if dedupe then
      let h := stable_hash rec
      if h ∈ seen then writtenRecords dedupe rest seen
      else rec :: writtenRecords dedupe rest (h :: seen)
    else rec :: writtenRecords dedupe rest seen

/-- The records contributed by one line in line mode. -/
def lineRecords (nl : Nat × String) : List Json :=
  let line := pyStrip nl.2
  if line.isEmpty then []
  else
    match json_loads line with
    | none => []
    | some v => (normalize_line v nl.1 []).1

/-- The discard entries contributed by one line in line mode. -/
def lineDiscards (nl : Nat × String) : List Json :=
  let line := pyStrip nl.2
  if line.isEmpty then []
  else
    match json_loads line with
    | none => [decodeErrorDiscard nl.1 line]
    | some v => (normalize_line v nl.1 []).2

mutual

/-- Every object anywhere inside the value has pairwise distinct keys
(true of every value `json.loads` can produce). -/
def wfKeys : Json → Bool
  | .null => true
  | .bool _ => true
  | .num _ => true
  | .str _ => true
  | .arr xs => wfKeysList xs
  | .obj fs => (fs.map Prod.fst).Nodup ∧ wfKeysFields fs

/-- `wfKeys` on each element. -/
def wfKeysList : List Json → Bool
  | [] => true
  | x :: xs => wfKeys x ∧ wfKeysList xs

/-- `wfKeys` on each field value. -/
def wfKeysFields : List (String × Json) → Bool
  | [] => true
  | (_, v) :: fs => wfKeys v ∧ wfKeysFields fs

end

/-- Characters at `U+0020` or above that `str.splitlines` still treats
as line boundaries (`U+0085`, `U+2028`, `U+2029`); `json.dump` writes
them into the output unescaped. -/
def isSepChar (c : Char) : Bool :=
  c.toNat = 0x85 ∨ c.toNat = 0x2028 ∨ c.toNat = 0x2029

mutual

/-- No string (key or value) anywhere inside the value contains one of
the unescaped line-boundary characters of `isSepChar`. -/
def noLineSep : Json → Bool
  | .null => true
  | .bool _ => true
  | .num _ => true
  | .str s => s.data.all (fun c => ¬ isSepChar c)
  | .arr xs => noLineSepList xs
  | .obj fs => noLineSepFields fs

/-- `noLineSep` on each element. -/
def noLineSepList : List Json → Bool
  | [] => true
  | x :: xs => noLineSep x ∧ noLineSepList xs

/-- `noLineSep` on each field. -/
def noLineSepFields : List (String × Json) → Bool
  | [] => true
  | (k, v) :: fs => (k.data.all (fun c => ¬ isSepChar c) ∧ noLineSep v) ∧ noLineSepFields fs

end

mutual

/-- Fuel needed by `parseValue` to scan the value: one unit per scanned
value plus one per container member. -/
def weight : Json → Nat
  | .null => 1
  | .bool _ => 1
  | .num _ => 1
  | .str _ => 1
  | .arr xs => 1 + weightList xs
  | .obj fs => 2 + weightFields fs

/-- Summed weights of array elements, one extra unit each. -/
def weightList : List Json → Nat
  | [] => 0
  | x :: xs => 1 + weight x + weightList xs

/-- Summed weights of fields, one extra unit each. -/
def weightFields : List (String × Json) → Nat
  | [] => 0
  | (_, v) :: fs => 1 + weight v + weightFields fs

end

/-- The serialized element list of a `json.dump` array body (between the
brackets), with the default `", "` separator. -/
def elemsBody : List Json → List Char
  | [] => []
  | [x] => serializeOut x
  | x :: xs => serializeOut x ++ ',' :: ' ' :: elemsBody xs

/-- The serialized member list of a `json.dump` object body from just
after the first key's opening quote (separators `", "` and `": "`). -/
def membersTail : List (String × Json) → List Char
  | [] => []
  | (k, v) :: fs =>
      k.data.flatMap escapeChar ++ '"' :: ':' :: ' ' ::
        (serializeOut v ++
          match fs with
          | [] => []
          | _ :: _ => ',' :: ' ' :: '"' :: membersTail fs)

/-! ## Helper lemmas -/

theorem writeLoop_counts (dd : Bool) (recs : List Json) (seen : List String) :
    (writeLoop dd recs seen).2.1 =
      (writeLoop dd recs seen).2.2.1 + (writeLoop dd recs seen).2.2.2 ∧
    (writeLoop dd recs seen).2.2.1 ≤ (writeLoop dd recs seen).2.1 := by
  induction recs generalizing seen with
  | nil => simp [writeLoop]
  | cons r rest ih =>
    by_cases hd : dd = true
    · subst hd
      by_cases hm : stable_hash r ∈ seen
      · have h2 := ih seen
        simp only [writeLoop, if_pos hm, if_pos rfl]
        rcases hw : writeLoop true rest seen with ⟨out, ns, w, d⟩
        rw [hw] at h2
        simp at h2 ⊢
        omega
      · have h2 := ih (stable_hash r :: seen)
        simp only [writeLoop, if_neg hm, if_pos rfl]
        rcases hw : writeLoop true rest (stable_hash r :: seen) with ⟨out, ns, w, d⟩
        rw [hw] at h2
        simp at h2 ⊢
        omega
    · have hd2 : dd = false := by simpa using hd
      subst hd2
      have h2 := ih seen
      simp only [writeLoop, Bool.false_eq_true, if_false]
      rcases hw : writeLoop false rest seen with ⟨out, ns, w, d⟩
      rw [hw] at h2
      simp at h2 ⊢
      omega

theorem normalizeElems_eq (lineno i : Nat) (xs : List Json) (d : List Json) :
    normalizeElems lineno i xs d =
      (xs.filter isDict,
       d ++ (xs.enumFrom i).filterMap fun p =>
         if isDict p.2 then none else some (elemDiscard lineno p.1 p.2)) := by
  induction xs generalizing i d with
  | nil => simp [normalizeElems]
  | cons x rest ih =>
    cases x <;>
      simp [normalizeElems, isDict, List.enumFrom, List.filter, ih, List.append_assoc]

theorem all_space_strip_empty {cs : List Char} (h : cs.all pyIsSpace = true) :
    pyStripChars cs = [] := by
  have h1 : cs.dropWhile pyIsSpace = [] := by
    rw [List.dropWhile_eq_nil_iff]
    intro x hx
    exact List.all_eq_true.mp h x hx
  simp [pyStripChars, h1]

/-! ## Claims -/

/-- C1: for every invocation of `normalize_jsonl`, the returned stats
satisfy `normalized_seen = written + duplicates_skipped`,
`written ≤ normalized_seen`, and all four counters are non-negative. -/
theorem claim_C1 (content : String) (dedupe : Bool) :
    (normalize_jsonl content dedupe).stats.normalized_seen =
      (normalize_jsonl content dedupe).stats.written +
      (normalize_jsonl content dedupe).stats.duplicates_skipped ∧
    (normalize_jsonl content dedupe).stats.written ≤
      (normalize_jsonl content dedupe).stats.normalized_seen ∧
    0 ≤ (normalize_jsonl content dedupe).stats.normalized_seen ∧
    0 ≤ (normalize_jsonl content dedupe).stats.written ∧
    0 ≤ (normalize_jsonl content dedupe).stats.duplicates_skipped ∧
    0 ≤ (normalize_jsonl content dedupe).stats.discarded_count := by
  have h := writeLoop_counts dedupe (normalizePhase content).1 []
  simp only [normalize_jsonl]
  rcases hw : writeLoop dedupe (normalizePhase content).1 [] with ⟨out, ns, w, d⟩
  rw [hw] at h
  rcases hp : normalizePhase content with ⟨recs, disc⟩
  rw [hp] at hw
  simp [hw]
  simp at h
  omega

/-- C2: `normalize_line` classifies a parsed value: a mapping is exactly
one record, unchanged, with no discard; a sequence keeps its mapping
elements in order and discards each non-mapping element with reason
"non-dict element in list", its 0-based index, its runtime type name, the
value itself and the line number; any other value yields no record and one
discard with reason "non-dict top-level value", type, value and line. -/
theorem claim_C2 (v : Json) (n : Nat) (d : List Json) :
    normalize_line v n d =
      match v with
      | .obj _ => ([v], d)
      | .arr xs =>
          (xs.filter isDict,
           d ++ xs.enum.filterMap fun p =>
             if isDict p.2 then none else some (elemDiscard n p.1 p.2))
      | _ => ([], d ++ [topDiscard n v]) := by
  cases v <;> simp [normalize_line, normalizeElems_eq, List.enum]

/-- C9: on empty or whitespace-only input, `normalize_jsonl` writes
nothing to either sink and returns all-zero statistics. -/
theorem claim_C9 (content : String) (dedupe : Bool)
    (h : content.data.all pyIsSpace = true) :
    normalize_jsonl content dedupe =
      { output := "", discarded_output := "",
        stats := ⟨0, 0, 0, 0⟩ } := by
  have hs : (pyStrip content).isEmpty = true := by
    simp [pyStrip, String.isEmpty, all_space_strip_empty h]
  simp [normalize_jsonl, normalizePhase, hs, writeLoop]

/-- Witness for C9 at the whitespace-only input `"  \t\n "`. -/
theorem claim_C9_witness :
    ("  \t\n ".data.all pyIsSpace = true) ∧
      normalize_jsonl "  \t\n " true =
        { output := "", discarded_output := "", stats := ⟨0, 0, 0, 0⟩ } :=
  ⟨by decide, claim_C9 "  \t\n " true (by decide)⟩

/-- C10: `normalize_jsonl` is deterministic and invocation-independent:
equal input text and equal dedupe flag give identical output text,
discard text and statistics (the dedup set, discard buffer and stats are
locals of each call in the source, so the embedding is a pure function
of its two arguments and no state carries across invocations). -/
theorem claim_C10 (c₁ c₂ : String) (d₁ d₂ : Bool)
    (hc : c₁ = c₂) (hd : d₁ = d₂) :
    normalize_jsonl c₁ d₁ = normalize_jsonl c₂ d₂ := by
  rw [hc, hd]

/-- Witness for C10 at a concrete input. -/
theorem claim_C10_witness :
    normalize_jsonl "[1, \x7b\"a\": 2\x7d]" true =
      normalize_jsonl "[1, \x7b\"a\": 2\x7d]" true :=
  claim_C10 "[1, \x7b\"a\": 2\x7d]" "[1, \x7b\"a\": 2\x7d]" true true rfl rfl

/-- C4: when the whole (non-blank) input parses as one classic JSON
document, it is classified exactly once with line number fixed to 1; the
input is not split into lines (the splitlines fallback runs only on a
whole-document decode failure). -/
theorem claim_C4 (content : String) (v : Json)
    (h1 : (pyStrip content).isEmpty = false)
    (h2 : json_loads content = some v) :
    normalizePhase content = normalize_line v 1 [] := by
  simp [normalizePhase, h1, h2]

/-- Witness for C4 at the concrete classic-JSON input `[{"a": 1}, 2]`. -/
theorem claim_C4_witness :
    ((pyStrip "[\x7b\"a\": 1\x7d, 2]").isEmpty = false) ∧
    normalizePhase "[\x7b\"a\": 1\x7d, 2]" =
      normalize_line (Json.arr [Json.obj [("a", Json.num 1)], Json.num 2]) 1 [] :=
  ⟨by decide, claim_C4 "[\x7b\"a\": 1\x7d, 2]"
    (Json.arr [Json.obj [("a", Json.num 1)], Json.num 2]) (by decide) (by rfl)⟩

/-! ### Order lemmas for the canonical key sort -/

theorem charListLt_asymm : ∀ {a b : List Char},
    charListLt a b = true → charListLt b a = false := by
  intro a
  induction a with
  | nil => intro b h; cases b <;> simp_all [charListLt]
  | cons x xs ih =>
    intro b h
    cases b with
    | nil => simp [charListLt] at h
    | cons y ys =>
      simp only [charListLt] at h ⊢
      by_cases h1 : x.toNat < y.toNat
      · have h2 : ¬ y.toNat < x.toNat := by omega
        simp [h1, h2]
      · by_cases h2 : y.toNat < x.toNat
        · simp [h1, h2] at h
        · simp [h1, h2] at h ⊢
          exact ih h

theorem charListLt_trans : ∀ {a b c : List Char},
    charListLt a b = true → charListLt b c = true → charListLt a c = true := by
  intro a
  induction a with
  | nil =>
    intro b c hab hbc
    cases b with
    | nil => simp [charListLt] at hab
    | cons y ys =>
      cases c with
      | nil => simp [charListLt] at hbc
      | cons z zs => simp [charListLt]
  | cons x xs ih =>
    intro b c hab hbc
    cases b with
    | nil => simp [charListLt] at hab
    | cons y ys =>
      cases c with
      | nil => simp [charListLt] at hbc
      | cons z zs =>
        simp only [charListLt] at hab hbc ⊢
        by_cases hxy : x.toNat < y.toNat
        · by_cases hyz : y.toNat < z.toNat
          · have : x.toNat < z.toNat := by omega
            simp [this]
          · by_cases hzy : z.toNat < y.toNat
            · simp [hyz, hzy] at hbc
            · have : y.toNat = z.toNat := by omega
              have hxz : x.toNat < z.toNat := by omega
              simp [hxz]
        · by_cases hyx : y.toNat < x.toNat
          · simp [hxy, hyx] at hab
          · have hexy : x.toNat = y.toNat := by omega
            simp [hxy, hyx] at hab
            by_cases hyz : y.toNat < z.toNat
            · have hxz : x.toNat < z.toNat := by omega
              simp [hxz]
            · by_cases hzy : z.toNat < y.toNat
              · simp [hyz, hzy] at hbc
              · simp [hyz, hzy] at hbc
                have hxz : ¬ x.toNat < z.toNat := by omega
                have hzx : ¬ z.toNat < x.toNat := by omega
                simp [hxz, hzx]
                exact ih hab hbc

theorem charListLt_tri : ∀ (a b : List Char),
    charListLt a b = true ∨ charListLt b a = true ∨ a = b := by
  intro a
  induction a with
  | nil =>
    intro b
    cases b with
    | nil => simp [charListLt]
    | cons y ys => simp [charListLt]
  | cons x xs ih =>
    intro b
    cases b with
    | nil => simp [charListLt]
    | cons y ys =>
      by_cases hxy : x.toNat < y.toNat
      · left; simp [charListLt, hxy]
      · by_cases hyx : y.toNat < x.toNat
        · right; left; simp [charListLt, hyx]
        · have hn : x.toNat = y.toNat := by omega
          have hx : x = y := Char.eq_of_val_eq (UInt32.toNat.inj hn)
          rcases ih ys with h | h | h
          · left; simp [charListLt, hxy, hyx, h]
          · right; left; simp only [charListLt, hx]
            rw [if_neg (by omega), if_neg (by omega)]
            exact h
          · right; right; simp [hx, h]

theorem pyStrLt_asymm {a b : String} (h : pyStrLt a b = true) :
    pyStrLt b a = false :=
  charListLt_asymm h

theorem pyStrLt_tri (a b : String) :
    pyStrLt a b = true ∨ pyStrLt b a = true ∨ a = b := by
  rcases charListLt_tri a.data b.data with h | h | h
  · exact Or.inl h
  · exact Or.inr (Or.inl h)
  · cases a; cases b; simp_all

/-- The non-strict field order used by the canonical sort. -/
theorem insertField_mem {kv p : String × Json} : ∀ {l : List (String × Json)},
    p ∈ insertField kv l ↔ p = kv ∨ p ∈ l := by
  intro l
  induction l with
  | nil => simp [insertField]
  | cons q qs ih =>
    simp only [insertField]
    by_cases h : pyStrLt q.1 kv.1 = true
    · rw [if_pos h]
      simp only [List.mem_cons, ih]
      tauto
    · rw [if_neg h]
      simp only [List.mem_cons]

theorem insertField_perm (kv : String × Json) (l : List (String × Json)) :
    (insertField kv l).Perm (kv :: l) := by
  induction l with
  | nil => simp [insertField]
  | cons q qs ih =>
    simp only [insertField]
    by_cases h : pyStrLt q.1 kv.1 = true
    · simp only [h, if_true]
      exact (ih.cons q).trans (List.Perm.swap kv q qs)
    · simp [h]

theorem sortFields_perm (l : List (String × Json)) : (sortFields l).Perm l := by
  induction l with
  | nil => simp [sortFields]
  | cons kv ps ih =>
    simp only [sortFields]
    exact (insertField_perm kv (sortFields ps)).trans (ih.cons kv)

theorem pyStrLt_le_trans {a b c : String} (h1 : pyStrLt b a = false)
    (h2 : pyStrLt c b = false) : pyStrLt c a = false := by
  by_contra hc
  have hca : pyStrLt c a = true := by simpa using hc
  rcases pyStrLt_tri a b with h | h | h
  · have := charListLt_trans hca h
    rw [show (charListLt c.data b.data = true) = (pyStrLt c b = true) from rfl] at this
    simp [this] at h2
  · simp [h] at h1
  · rw [h] at hca
    simp [hca] at h2

theorem insertField_sorted {kv : String × Json} {l : List (String × Json)}
    (h : l.Pairwise (fun p q => pyStrLt q.1 p.1 = false)) :
    (insertField kv l).Pairwise (fun p q => pyStrLt q.1 p.1 = false) := by
  induction l with
  | nil => simp [insertField]
  | cons q qs ih =>
    rcases List.pairwise_cons.mp h with ⟨hq, hqs⟩
    simp only [insertField]
    by_cases hlt : pyStrLt q.1 kv.1 = true
    · simp only [hlt, if_true]
      refine List.pairwise_cons.mpr ⟨?_, ih hqs⟩
      intro p hp
      rcases insertField_mem.mp hp with rfl | hp2
      · exact pyStrLt_asymm hlt
      · exact hq p hp2
    · simp only [hlt, if_false]
      have hqk : pyStrLt q.1 kv.1 = false := by simpa using hlt
      refine List.pairwise_cons.mpr ⟨?_, h⟩
      intro p hp
      rcases List.mem_cons.mp hp with rfl | hp2
      · exact hqk
      · exact pyStrLt_le_trans hqk (hq p hp2)

theorem sortFields_sorted (l : List (String × Json)) :
    (sortFields l).Pairwise (fun p q => pyStrLt q.1 p.1 = false) := by
  induction l with
  | nil => simp [sortFields]
  | cons kv ps ih => exact insertField_sorted ih

/-- Two permuted field lists with pairwise distinct keys sort identically. -/
theorem sortFields_eq_of_perm {l1 l2 : List (String × Json)}
    (hp : l1.Perm l2) (hn : (l1.map Prod.fst).Nodup) :
    sortFields l1 = sortFields l2 := by
  have hperm : (sortFields l1).Perm (sortFields l2) :=
    (sortFields_perm l1).trans (hp.trans (sortFields_perm l2).symm)
  have hn1 : ((sortFields l1).map Prod.fst).Nodup :=
    (((sortFields_perm l1).map Prod.fst).nodup_iff).mpr hn
  have hn2 : ((sortFields l2).map Prod.fst).Nodup :=
    ((hperm.map Prod.fst).nodup_iff).mp hn1
  have strict : ∀ l : List (String × Json),
      l.Pairwise (fun p q => pyStrLt q.1 p.1 = false) →
      ((l.map Prod.fst).Nodup) →
      l.Pairwise (fun p q => pyStrLt p.1 q.1 = true) := by
    intro l hle hnd
    have hkey : l.Pairwise (fun p q => p.1 ≠ q.1) := List.pairwise_map.mp hnd
    refine (hle.and hkey).imp ?_
    intro p q hpq
    rcases pyStrLt_tri p.1 q.1 with h | h | h
    · exact h
    · simp [h] at hpq
    · exact absurd h hpq.2
  have hs1 := strict _ (sortFields_sorted l1) hn1
  have hs2 := strict _ (sortFields_sorted l2) hn2
  haveI : IsAntisymm (String × Json) (fun p q => pyStrLt p.1 q.1 = true) :=
    ⟨fun a b h1 h2 => absurd h2 (by simp [pyStrLt_asymm h1])⟩
  exact List.eq_of_perm_of_sorted hperm hs1 hs2

theorem canonFields_eq_map (fs : List (String × Json)) :
    canonFields fs = fs.map (fun kv => (kv.1, canonValue kv.2)) := by
  induction fs with
  | nil => rfl
  | cons kv rest ih =>
    rcases kv with ⟨k, v⟩
    simp [canonFields, ih]

/-! ### Hex-format lemmas for `stable_hash` -/

theorem hexChar_mem (n : Nat) : hexChar n ∈ lowercaseHexDigits := by
  match n with
  | 0 | 1 | 2 | 3 | 4 | 5 | 6 | 7 | 8 | 9 | 10 | 11 | 12 | 13 | 14 | 15 => decide
  | _ + 16 => simp [hexChar, lowercaseHexDigits]

theorem bytesToHex_length (bs : List Nat) : (bytesToHex bs).length = 2 * bs.length := by
  induction bs with
  | nil => rfl
  | cons b rest ih => simp [bytesToHex, List.flatMap_cons] at ih ⊢; omega

theorem bytesToHex_mem {bs : List Nat} {c : Char} (h : c ∈ bytesToHex bs) :
    c ∈ lowercaseHexDigits := by
  induction bs with
  | nil => simp [bytesToHex] at h
  | cons b rest ih =>
    simp only [bytesToHex, List.flatMap_cons, List.mem_append] at h
    rcases h with h | h
    · rcases List.mem_cons.mp h with rfl | h2
      · exact hexChar_mem _
      · rcases List.mem_cons.mp h2 with rfl | h3
        · exact hexChar_mem _
        · simp at h3
    · exact ih h

theorem sha256_length (msg : List Nat) : (sha256 msg).length = 32 := by
  simp [sha256, wordToBytes]

/-- C3: records with identical key/value content at every nesting level,
irrespective of key insertion order (equal canonical forms), have
identical fingerprints; permuting the fields of a record with distinct
keys never changes the fingerprint; and the fingerprint is the lowercase
hexadecimal SHA-256 digest (64 lowercase hex characters) of the canonical
serialization with keys sorted at every level. -/
theorem claim_C3 (a b : Json) (h : canonValue a = canonValue b) :
    stable_hash a = stable_hash b ∧
    (∀ fs1 fs2 : List (String × Json), fs1.Perm fs2 → (fs1.map Prod.fst).Nodup →
        stable_hash (.obj fs1) = stable_hash (.obj fs2)) ∧
    stable_hash a = String.mk (bytesToHex (sha256 (utf8Encode (canonicalDumps a)))) ∧
    (stable_hash a).length = 64 ∧
    (∀ c ∈ (stable_hash a).data, c ∈ lowercaseHexDigits) := by
  refine ⟨by simp [stable_hash, canonicalDumps, h], ?_, rfl, ?_, ?_⟩
  · intro fs1 fs2 hperm hnodup
    have hc : canonValue (.obj fs1) = canonValue (.obj fs2) := by
      have hmapperm : (canonFields fs1).Perm (canonFields fs2) := by
        rw [canonFields_eq_map, canonFields_eq_map]
        exact hperm.map _
      have hkeys : ((canonFields fs1).map Prod.fst).Nodup := by
        rw [canonFields_eq_map, List.map_map]
        exact hnodup
      simp only [canonValue]
      rw [sortFields_eq_of_perm hmapperm hkeys]
    simp [stable_hash, canonicalDumps, hc]
  · show (String.mk (bytesToHex (sha256 (utf8Encode (canonicalDumps a))))).length = 64
    rw [show ∀ l : List Char, (String.mk l).length = l.length from fun l => rfl]
    rw [bytesToHex_length, sha256_length]
  · intro c hc
    exact bytesToHex_mem hc

/-- Witness for C3: the same two-field record with the two key orders. -/
theorem claim_C3_witness :
    canonValue (Json.obj [("b", Json.num 2), ("a", Json.num 1)]) =
      canonValue (Json.obj [("a", Json.num 1), ("b", Json.num 2)]) ∧
    stable_hash (Json.obj [("b", Json.num 2), ("a", Json.num 1)]) =
      stable_hash (Json.obj [("a", Json.num 1), ("b", Json.num 2)]) :=
  ⟨rfl, (claim_C3 (Json.obj [("b", Json.num 2), ("a", Json.num 1)])
      (Json.obj [("a", Json.num 1), ("b", Json.num 2)]) rfl).1⟩

/-! ### Write-loop lemmas -/

theorem writtenRecords_length_le (dd : Bool) (recs : List Json) (seen : List String) :
    (writtenRecords dd recs seen).length ≤ recs.length := by
  induction recs generalizing seen with
  | nil => simp [writtenRecords]
  | cons r rest ih =>
    simp only [writtenRecords]
    by_cases hd : dd = true
    · subst hd
      simp only [if_pos rfl]
      by_cases hm : stable_hash r ∈ seen
      · rw [if_pos hm]
        exact (ih seen).trans (by simp)
      · rw [if_neg hm]
        simpa using ih (stable_hash r :: seen)
    · have hd2 : dd = false := by simpa using hd
      subst hd2
      simp only [Bool.false_eq_true, if_false, List.length_cons]
      simpa using ih seen

theorem writeLoop_spec (dd : Bool) (recs : List Json) (seen : List String) :
    writeLoop dd recs seen =
      ((writtenRecords dd recs seen).flatMap (fun r => serializeOut r ++ ['\n']),
       recs.length,
       (writtenRecords dd recs seen).length,
       recs.length - (writtenRecords dd recs seen).length) := by
  induction recs generalizing seen with
  | nil => simp [writeLoop, writtenRecords]
  | cons r rest ih =>
    simp only [writeLoop, writtenRecords]
    by_cases hd : dd = true
    · subst hd
      simp only [if_pos rfl]
      by_cases hm : stable_hash r ∈ seen
      · rw [if_pos hm, if_pos hm, ih seen]
        have hle := writtenRecords_length_le true rest seen
        simp only [if_true, Prod.mk.injEq, List.length_cons, true_and, and_true]
        omega
      · rw [if_neg hm, if_neg hm, ih (stable_hash r :: seen)]
        have hle := writtenRecords_length_le true rest (stable_hash r :: seen)
        simp only [if_true, Prod.mk.injEq, List.flatMap_cons, List.length_cons, List.cons_append,
          List.append_assoc, List.singleton_append, List.nil_append, true_and, and_true]
        omega
    · have hd2 : dd = false := by simpa using hd
      subst hd2
      simp only [Bool.false_eq_true, if_false]
      rw [ih seen]
      have hle := writtenRecords_length_le false rest seen
      simp only [if_true, Prod.mk.injEq, List.flatMap_cons, List.length_cons, List.cons_append,
        List.append_assoc, List.singleton_append, List.nil_append, true_and, and_true]
      omega

theorem writtenRecords_nodedupe (recs : List Json) (seen : List String) :
    writtenRecords false recs seen = recs := by
  induction recs generalizing seen with
  | nil => rfl
  | cons r rest ih => simp [writtenRecords, ih]

/-- First-seen-wins characterization of the dedupe pass, generalized over
the already-seen set. -/
theorem writtenRecords_dedupe_spec (recs : List Json) (seen : List String) :
    (writtenRecords true recs seen).Sublist recs ∧
    ((writtenRecords true recs seen).map stable_hash).Nodup ∧
    (∀ h ∈ (writtenRecords true recs seen).map stable_hash, h ∉ seen) ∧
    (∀ r ∈ recs, stable_hash r ∈ seen ∨
        stable_hash r ∈ (writtenRecords true recs seen).map stable_hash) ∧
    (∀ w ∈ writtenRecords true recs seen,
        recs.find? (fun r => stable_hash r == stable_hash w) = some w) := by
  induction recs generalizing seen with
  | nil => simp [writtenRecords]
  | cons r rest ih =>
    simp only [writtenRecords, if_pos rfl, if_true]
    by_cases hm : stable_hash r ∈ seen
    · rw [if_pos hm]
      obtain ⟨h1, h2, h3, h4, h5⟩ := ih seen
      refine ⟨h1.cons r, h2, h3, ?_, ?_⟩
      · intro x hx
        rcases List.mem_cons.mp hx with rfl | hx2
        · exact Or.inl hm
        · exact h4 x hx2
      · intro w hw
        have hne : stable_hash r ≠ stable_hash w := by
          intro he
          exact h3 (stable_hash w) (List.mem_map_of_mem stable_hash hw) (he ▸ hm)
        rw [List.find?_cons_of_neg _ (by simpa using hne)]
        exact h5 w hw
    · rw [if_neg hm]
      obtain ⟨h1, h2, h3, h4, h5⟩ := ih (stable_hash r :: seen)
      refine ⟨h1.cons₂ r, ?_, ?_, ?_, ?_⟩
      · simp only [List.map_cons, List.nodup_cons]
        exact ⟨fun hc => h3 _ hc (by simp), h2⟩
      · intro x hx
        simp only [List.map_cons, List.mem_cons] at hx
        rcases hx with rfl | hx2
        · exact hm
        · intro hc
          exact h3 x hx2 (List.mem_cons_of_mem _ hc)
      · intro x hx
        rcases List.mem_cons.mp hx with rfl | hx2
        · simp
        · rcases h4 x hx2 with hs | hs
          · rcases List.mem_cons.mp hs with he | hs2
            · exact Or.inr (by simp [he])
            · exact Or.inl hs2
          · exact Or.inr (List.mem_cons_of_mem _ hs)
      · intro w hw
        rcases List.mem_cons.mp hw with rfl | hw2
        · simp [List.find?_cons_of_pos]
        · have hne : stable_hash r ≠ stable_hash w := by
            intro he
            exact h3 (stable_hash w) (List.mem_map_of_mem stable_hash hw2) (by simp [← he])
          rw [List.find?_cons_of_neg _ (by simpa using hne)]
          exact h5 w hw2

/-- C5: with dedupe enabled the survivors of a run are a sublist of the
classified records carrying pairwise distinct fingerprints, every record's
fingerprint occurs among them, each survivor is the first record bearing
its fingerprint (first-seen-wins, with a run-scoped set), `written` counts
the survivors and `duplicates_skipped` the rest; with dedupe disabled
every record is written and no duplicate is skipped; and scenario B
(`{"id":1,"name":"foo"}` twice then `{"id":2,"name":"bar"}`, dedupe on)
gives written 2, duplicates_skipped 1, discarded_count 0. -/
theorem claim_C5 :
    (∀ content : String,
       (normalize_jsonl content false).stats.written =
         (normalize_jsonl content false).stats.normalized_seen ∧
       (normalize_jsonl content false).stats.duplicates_skipped = 0) ∧
    (∀ content : String,
       (writtenRecords true (normalizePhase content).1 []).Sublist
         (normalizePhase content).1 ∧
       ((writtenRecords true (normalizePhase content).1 []).map stable_hash).Nodup ∧
       (∀ r ∈ (normalizePhase content).1, stable_hash r ∈
         (writtenRecords true (normalizePhase content).1 []).map stable_hash) ∧
       (∀ w ∈ writtenRecords true (normalizePhase content).1 [],
         (normalizePhase content).1.find? (fun r => stable_hash r == stable_hash w) =
           some w) ∧
       (normalize_jsonl content true).stats.written =
         (writtenRecords true (normalizePhase content).1 []).length ∧
       (normalize_jsonl content true).stats.duplicates_skipped =
         (normalizePhase content).1.length -
           (writtenRecords true (normalizePhase content).1 []).length) ∧
    (normalize_jsonl
        "\x7b\"id\":1,\"name\":\"foo\"\x7d\n\x7b\"id\":1,\"name\":\"foo\"\x7d\n\x7b\"id\":2,\"name\":\"bar\"\x7d"
        true).stats = ⟨3, 2, 1, 0⟩ := by
  refine ⟨?_, ?_, by decide⟩
  · intro content
    have hw := writeLoop_spec false (normalizePhase content).1 []
    rw [writtenRecords_nodedupe] at hw
    simp only [normalize_jsonl]
    rcases hp : normalizePhase content with ⟨recs, disc⟩
    rw [hp] at hw
    simp only [hw]
    simp
  · intro content
    obtain ⟨h1, h2, h3, h4, h5⟩ := writtenRecords_dedupe_spec (normalizePhase content).1 []
    have hw := writeLoop_spec true (normalizePhase content).1 []
    refine ⟨h1, h2, ?_, h5, ?_, ?_⟩
    · intro r hr
      rcases h4 r hr with hc | hc
      · simp at hc
      · exact hc
    · simp only [normalize_jsonl]
      rcases hp : normalizePhase content with ⟨recs, disc⟩
      rw [hp] at hw
      simp only [hw]
    · simp only [normalize_jsonl]
      rcases hp : normalizePhase content with ⟨recs, disc⟩
      rw [hp] at hw
      simp only [hw]

/-! ### Line-mode lemmas -/

theorem normalize_line_append (v : Json) (n : Nat) (d : List Json) :
    normalize_line v n d = ((normalize_line v n []).1, d ++ (normalize_line v n []).2) := by
  cases v <;> simp [normalize_line, normalizeElems_eq]

theorem processLine_eq (st : List Json × List Json) (nl : Nat × String) :
    processLine st nl = (st.1 ++ lineRecords nl, st.2 ++ lineDiscards nl) := by
  rcases st with ⟨recs, disc⟩
  simp only [processLine, lineRecords, lineDiscards]
  by_cases hb : (pyStrip nl.2).isEmpty = true
  · simp [hb]
  · have hb2 : (pyStrip nl.2).isEmpty = false := by simpa using hb
    simp only [hb2, Bool.false_eq_true, if_false]
    cases hj : json_loads (pyStrip nl.2) with
    | none => simp
    | some v => simp [normalize_line_append v nl.1 disc]

theorem processLines_decomp (lines : List (Nat × String)) (st : List Json × List Json) :
    lines.foldl processLine st =
      (st.1 ++ lines.flatMap lineRecords, st.2 ++ lines.flatMap lineDiscards) := by
  induction lines generalizing st with
  | nil => simp
  | cons l rest ih =>
    simp only [List.foldl_cons, List.flatMap_cons]
    rw [processLine_eq, ih]
    simp [List.append_assoc]

/-- C6 (amended: the `raw` field holds the line's text with surrounding
whitespace stripped, `line = line.strip()` preceding the decode in the
source): in line mode the records and discards are the concatenation, in
line order, of each line's independent contribution — so lines before and
after a bad one are processed normally — and a non-blank line whose
stripped text fails to decode contributes no record and exactly one
discard with reason "json_decode_error", `raw` = the stripped line text,
an `error` diagnostic string, and the line's 1-based number. -/
theorem claim_C6 (content : String)
    (h1 : (pyStrip content).isEmpty = false)
    (h2 : json_loads content = none) :
    normalizePhase content =
      (((pySplitlines content).enumFrom 1).flatMap lineRecords,
       ((pySplitlines content).enumFrom 1).flatMap lineDiscards) ∧
    (∀ (n : Nat) (t : String), (pyStrip t).isEmpty = false →
       json_loads (pyStrip t) = none →
       lineRecords (n, t) = [] ∧
       lineDiscards (n, t) = [decodeErrorDiscard n (pyStrip t)]) := by
  constructor
  · simp only [normalizePhase, h1, Bool.false_eq_true, if_false, h2]
    rw [processLines, processLines_decomp]
    simp
  · intro n t hb hj
    constructor <;> simp [lineRecords, lineDiscards, hb, hj]

/-- Witness for C6 at an input whose first line is not valid JSON. -/
theorem claim_C6_witness :
    ((pyStrip "not json\n\x7b\"a\": 1\x7d").isEmpty = false) ∧
    json_loads "not json\n\x7b\"a\": 1\x7d" = none ∧
    normalizePhase "not json\n\x7b\"a\": 1\x7d" =
      (((pySplitlines "not json\n\x7b\"a\": 1\x7d").enumFrom 1).flatMap lineRecords,
       ((pySplitlines "not json\n\x7b\"a\": 1\x7d").enumFrom 1).flatMap lineDiscards) :=
  ⟨by decide, by rfl,
    (claim_C6 "not json\n\x7b\"a\": 1\x7d" (by decide) (by rfl)).1⟩

/-- Counterexample to C6 as stated: for the input `{"a": 1}\n [x`, the
second line's original text is `" [x"`, but the discard entry's `raw`
field holds the stripped text `"[x"`. -/
theorem claim_C6_counterexample :
    pySplitlines "\x7b\"a\": 1\x7d\n [x" = ["\x7b\"a\": 1\x7d", " [x"] ∧
    (normalizePhase "\x7b\"a\": 1\x7d\n [x").2 =
      [Json.obj [("line", Json.num 2), ("raw", Json.str "[x"),
                 ("error", Json.str (decodeErrorRepr "[x")),
                 ("reason", Json.str "json_decode_error")]] ∧
    ("[x" : String) ≠ " [x" :=
  ⟨rfl, rfl, by decide⟩

/-! ### Serializer character lemmas -/

theorem digitChar_ge (n : Nat) : 0x20 ≤ (digitChar n).toNat := by
  match n with
  | 0 | 1 | 2 | 3 | 4 | 5 | 6 | 7 | 8 | 9 => decide
  | _ + 10 => exact (by decide : 0x20 ≤ ('0' : Char).toNat)

theorem hexChar_ge (n : Nat) : 0x20 ≤ (hexChar n).toNat := by
  match n with
  | 0 | 1 | 2 | 3 | 4 | 5 | 6 | 7 | 8 | 9 | 10 | 11 | 12 | 13 | 14 | 15 => decide
  | _ + 16 => exact (by decide : 0x20 ≤ ('0' : Char).toNat)

theorem natToDecAux_mem {fuel n : Nat} {acc : List Char} {d : Char}
    (h : d ∈ natToDecAux fuel n acc) : d ∈ acc ∨ ∃ m, d = digitChar m := by
  induction fuel generalizing n acc with
  | zero => exact Or.inl h
  | succ fuel ih =>
    simp only [natToDecAux] at h
    by_cases hn : n < 10
    · rw [if_pos hn] at h
      rcases List.mem_cons.mp h with rfl | h2
      · exact Or.inr ⟨n, rfl⟩
      · exact Or.inl h2
    · rw [if_neg hn] at h
      rcases ih h with h2 | h2
      · rcases List.mem_cons.mp h2 with rfl | h3
        · exact Or.inr ⟨n % 10, rfl⟩
        · exact Or.inl h3
      · exact Or.inr h2

theorem intToDec_ge {i : Int} {d : Char} (h : d ∈ intToDec i) : 0x20 ≤ d.toNat := by
  have hnat : ∀ m : Nat, d ∈ natToDec m → 0x20 ≤ d.toNat := by
    intro m hm
    rcases natToDecAux_mem hm with h2 | ⟨k, rfl⟩
    · simp at h2
    · exact digitChar_ge k
  cases i with
  | ofNat m => exact hnat m h
  | negSucc m =>
    rcases List.mem_cons.mp h with rfl | h2
    · decide
    · exact hnat (m + 1) h2

theorem escapeChar_ge {c d : Char} (h : d ∈ escapeChar c) : 0x20 ≤ d.toNat := by
  simp only [escapeChar] at h
  split_ifs at h <;>
    simp only [List.mem_cons, List.not_mem_nil, or_false] at h
  · rcases h with rfl | rfl <;> decide
  · rcases h with rfl | rfl <;> decide
  · rcases h with rfl | rfl <;> decide
  · rcases h with rfl | rfl <;> decide
  · rcases h with rfl | rfl <;> decide
  · rcases h with rfl | rfl <;> decide
  · rcases h with rfl | rfl <;> decide
  · rcases h with rfl | rfl | rfl | rfl | rfl | rfl
    · decide
    · decide
    · decide
    · decide
    · exact hexChar_ge _
    · exact hexChar_ge _
  · subst h
    omega

theorem encodeString_ge {s : String} {d : Char} (h : d ∈ encodeString s) :
    0x20 ≤ d.toNat := by
  simp only [encodeString] at h
  rcases List.mem_cons.mp h with rfl | h2
  · decide
  · rcases List.mem_append.mp h2 with h3 | h3
    · rcases List.mem_flatMap.mp h3 with ⟨c, _, hc⟩
      exact escapeChar_ge hc
    · rcases List.mem_cons.mp h3 with rfl | h4
      · decide
      · simp at h4

theorem intercalate_cons₂ {α : Type} (sep : List α) (x y : List α)
    (zs : List (List α)) :
    List.intercalate sep (x :: y :: zs) = x ++ sep ++ List.intercalate sep (y :: zs) := by
  simp [List.intercalate, List.intersperse_cons_cons]

theorem mem_intercalate {α : Type} {sep : List α} {d : α} :
    ∀ {L : List (List α)}, d ∈ List.intercalate sep L →
      d ∈ sep ∨ ∃ l ∈ L, d ∈ l := by
  intro L
  induction L with
  | nil => intro h; simp [List.intercalate] at h
  | cons x rest ih =>
    intro h
    cases rest with
    | nil =>
      simp [List.intercalate] at h
      exact Or.inr ⟨x, by simp, h⟩
    | cons y zs =>
      rw [intercalate_cons₂] at h
      rcases List.mem_append.mp h with h2 | h2
      · rcases List.mem_append.mp h2 with h3 | h3
        · exact Or.inr ⟨x, by simp, h3⟩
        · exact Or.inl h3
      · rcases ih h2 with h3 | ⟨l, hl, hdl⟩
        · exact Or.inl h3
        · exact Or.inr ⟨l, List.mem_cons_of_mem _ hl, hdl⟩

mutual

theorem dumps_ge (isep ksep : List Char)
    (hi : ∀ d ∈ isep, 0x20 ≤ d.toNat) (hk : ∀ d ∈ ksep, 0x20 ≤ d.toNat) :
    ∀ (v : Json) (d : Char), d ∈ dumps isep ksep v → 0x20 ≤ d.toNat
  | .null, d, hd => by
    simp only [dumps, List.mem_cons, List.not_mem_nil, or_false] at hd
    rcases hd with rfl | rfl | rfl | rfl <;> decide
  | .bool b, d, hd => by
    cases b with
    | false =>
      simp only [dumps] at hd
      rw [if_neg (by simp)] at hd
      simp only [List.mem_cons, List.not_mem_nil, or_false] at hd
      rcases hd with rfl | rfl | rfl | rfl | rfl <;> decide
    | true =>
      simp only [dumps] at hd
      rw [if_pos trivial] at hd
      simp only [List.mem_cons, List.not_mem_nil, or_false] at hd
      rcases hd with rfl | rfl | rfl | rfl <;> decide
  | .num n, d, hd => intToDec_ge hd
  | .str s, d, hd => encodeString_ge hd
  | .arr xs, d, hd => by
    simp only [dumps] at hd
    rcases List.mem_cons.mp hd with rfl | h2
    · decide
    · rcases List.mem_append.mp h2 with h3 | h3
      · rcases mem_intercalate h3 with h4 | ⟨l, hl, hdl⟩
        · exact hi d h4
        · exact dumpsList_ge isep ksep hi hk xs l hl d hdl
      · rcases List.mem_cons.mp h3 with rfl | h4
        · decide
        · simp at h4
  | .obj fs, d, hd => by
    simp only [dumps] at hd
    rcases List.mem_cons.mp hd with rfl | h2
    · decide
    · rcases List.mem_append.mp h2 with h3 | h3
      · rcases mem_intercalate h3 with h4 | ⟨l, hl, hdl⟩
        · exact hi d h4
        · exact dumpsFields_ge isep ksep hi hk fs l hl d hdl
      · rcases List.mem_cons.mp h3 with rfl | h4
        · decide
        · simp at h4

theorem dumpsList_ge (isep ksep : List Char)
    (hi : ∀ d ∈ isep, 0x20 ≤ d.toNat) (hk : ∀ d ∈ ksep, 0x20 ≤ d.toNat) :
    ∀ (xs : List Json) (l : List Char), l ∈ dumpsList isep ksep xs →
      ∀ d ∈ l, 0x20 ≤ d.toNat
  | [], l, hl => by simp [dumpsList] at hl
  | x :: xs, l, hl => by
    simp only [dumpsList] at hl
    rcases List.mem_cons.mp hl with rfl | h2
    · exact fun d hd => dumps_ge isep ksep hi hk x d hd
    · exact dumpsList_ge isep ksep hi hk xs l h2

theorem dumpsFields_ge (isep ksep : List Char)
    (hi : ∀ d ∈ isep, 0x20 ≤ d.toNat) (hk : ∀ d ∈ ksep, 0x20 ≤ d.toNat) :
    ∀ (fs : List (String × Json)) (l : List Char), l ∈ dumpsFields isep ksep fs →
      ∀ d ∈ l, 0x20 ≤ d.toNat
  | [], l, hl => by simp [dumpsFields] at hl
  | (k, v) :: fs, l, hl => by
    simp only [dumpsFields] at hl
    rcases List.mem_cons.mp hl with rfl | h2
    · intro d hd
      rcases List.mem_append.mp hd with h3 | h3
      · rcases List.mem_append.mp h3 with h4 | h4
        · exact encodeString_ge h4
        · exact hk d h4
      · exact dumps_ge isep ksep hi hk v d h3
    · exact dumpsFields_ge isep ksep hi hk fs l h2

end

/-- The serializer never emits a character below `U+0020`: controls are
escaped. -/
theorem serializeOut_ge {v : Json} {d : Char} (h : d ∈ serializeOut v) :
    0x20 ≤ d.toNat :=
  dumps_ge ", ".data ": ".data (by decide) (by decide) v d h

theorem serializeOut_no_newline (v : Json) : '\n' ∉ serializeOut v := by
  intro h
  have := serializeOut_ge h
  simp at this

/-- Output characterization: the output sink text is the survivors'
`json.dump` lines in order, the discard sink text is the discard entries'
lines in order. -/
theorem normalize_jsonl_sinks (content : String) (dd : Bool) :
    (normalize_jsonl content dd).output =
      String.mk ((writtenRecords dd (normalizePhase content).1 []).flatMap
        (fun r => serializeOut r ++ ['\n'])) ∧
    (normalize_jsonl content dd).discarded_output =
      String.mk ((normalizePhase content).2.flatMap
        (fun e => serializeOut e ++ ['\n'])) ∧
    (normalize_jsonl content dd).stats.discarded_count =
      (normalizePhase content).2.length := by
  have hw := writeLoop_spec dd (normalizePhase content).1 []
  simp only [normalize_jsonl]
  rcases hp : normalizePhase content with ⟨recs, disc⟩
  rw [hp] at hw
  simp only [hw]
  simp

/-- C7 (amended: the source writes with `json.dump`'s default separators
`", "` and `": "`, not compact separators): every accepted record is
written to the output sink as exactly one `\n`-terminated line of JSON
text in Python's default dump format with non-ASCII characters unescaped,
and every DiscardEntry is written to the discard sink as one JSON object
per line in the order discovered; the accepted records of Scenario A
appear in the output exactly as `{"a": 1, "b": 2}` and `{"a": 2}`. -/
theorem claim_C7 (content : String) (dedupe : Bool) :
    (normalize_jsonl content dedupe).output =
      String.mk ((writtenRecords dedupe (normalizePhase content).1 []).flatMap
        (fun r => serializeOut r ++ ['\n'])) ∧
    (normalize_jsonl content dedupe).discarded_output =
      String.mk ((normalizePhase content).2.flatMap
        (fun e => serializeOut e ++ ['\n'])) ∧
    (∀ r : Json, '\n' ∉ serializeOut r) ∧
    serializeOut (Json.obj [("k", Json.str "héllo")]) = "\x7b\"k\": \"héllo\"\x7d".data ∧
    (normalize_jsonl "\x7b\"a\":1,\"b\":2\x7d\n[\x7b\"a\":2\x7d,[7]]\n\"just a string\"\n"
        false).output = "\x7b\"a\": 1, \"b\": 2\x7d\n\x7b\"a\": 2\x7d\n" := by
  obtain ⟨h1, h2, _⟩ := normalize_jsonl_sinks content dedupe
  exact ⟨h1, h2, serializeOut_no_newline, rfl, rfl⟩

/-- Counterexample to C7 as stated: in Scenario A the first output line is
`{"a": 1, "b": 2}` (Python's default dump separators), not the compact
`{"a":1,"b":2}` the claim asserts. -/
theorem claim_C7_counterexample :
    (normalize_jsonl "\x7b\"a\":1,\"b\":2\x7d\n[\x7b\"a\":2\x7d,[7]]\n\"just a string\"\n"
        false).output = "\x7b\"a\": 1, \"b\": 2\x7d\n\x7b\"a\": 2\x7d\n" ∧
    "\x7b\"a\": 1, \"b\": 2\x7d\n\x7b\"a\": 2\x7d\n" ≠
      ("\x7b\"a\":1,\"b\":2\x7d\n\x7b\"a\":2\x7d\n" : String) :=
  ⟨rfl, by decide⟩

/-! ### Round-trip: scanning back what `json.dump` wrote -/

theorem skipWs_cons_not {c : Char} (h : jsonWsChar c = false) (r : List Char) :
    skipWs (c :: r) = c :: r := by
  simp [skipWs, List.dropWhile_cons, h]

theorem skipWs_cons_ws {c : Char} (h : jsonWsChar c = true) (r : List Char) :
    skipWs (c :: r) = skipWs r := by
  simp [skipWs, List.dropWhile_cons, h]

theorem hexVal_hexChar {n : Nat} (h : n < 16) : hexVal (hexChar n) = some n := by
  revert h
  revert n
  decide

theorem escapeChar_length_pos (c : Char) : 1 ≤ (escapeChar c).length := by
  simp only [escapeChar]
  split_ifs <;> simp

theorem flatMap_escape_length (s : List Char) :
    s.length ≤ (s.flatMap escapeChar).length := by
  induction s with
  | nil => simp
  | cons c cs ih =>
    simp only [List.flatMap_cons, List.length_append, List.length_cons]
    have := escapeChar_length_pos c
    omega

/-- One scan step over the escape of a control character. -/
theorem psb_step_ctrl {c : Char} (hlt : c.toNat < 0x20) (f : Nat) (X acc : List Char) :
    parseStringBody (f + 1) (escapeChar c ++ X) acc = parseStringBody f X (c :: acc) := by
  obtain ⟨k, hk, hkeq⟩ : ∃ k, k < 32 ∧ c.toNat = k := ⟨c.toNat, hlt, rfl⟩
  have hc : c = Char.ofNat k := by rw [← hkeq, Char.ofNat_toNat]
  subst hc
  interval_cases k <;> rfl

/-- Scanning back a string literal body written by `json.dumps`. -/
theorem parseStringBody_rt (s : List Char) : ∀ (fuel : Nat) (acc rest : List Char),
    s.length + 1 ≤ fuel →
    parseStringBody fuel (s.flatMap escapeChar ++ '"' :: rest) acc =
      some (String.mk (acc.reverse ++ s), rest) := by
  induction s with
  | nil =>
    intro fuel acc rest hf
    obtain ⟨f, rfl⟩ : ∃ f, fuel = f + 1 := ⟨fuel - 1, by omega⟩
    simp [show parseStringBody (f + 1) ('"' :: rest) acc =
      some (String.mk acc.reverse, rest) from rfl]
  | cons c cs ih =>
    intro fuel acc rest hf
    obtain ⟨f, rfl⟩ : ∃ f, fuel = f + 1 := ⟨fuel - 1, by omega⟩
    have hff : cs.length + 1 ≤ f := by
      simp only [List.length_cons] at hf
      omega
    simp only [List.flatMap_cons, List.append_assoc]
    by_cases hq : c = '"'
    · subst hq
      rw [show parseStringBody (f + 1)
          (escapeChar '"' ++ (cs.flatMap escapeChar ++ '"' :: rest)) acc =
          parseStringBody f (cs.flatMap escapeChar ++ '"' :: rest) ('"' :: acc) from rfl]
      rw [ih f _ _ hff]
      simp
    · by_cases hb : c = '\\'
      · subst hb
        rw [show parseStringBody (f + 1)
            (escapeChar '\\' ++ (cs.flatMap escapeChar ++ '"' :: rest)) acc =
            parseStringBody f (cs.flatMap escapeChar ++ '"' :: rest) ('\\' :: acc) from rfl]
        rw [ih f _ _ hff]
        simp
      · by_cases hlt : c.toNat < 0x20
        · rw [psb_step_ctrl hlt, ih f _ _ hff]
          simp
        · have h8 : ¬ c.toNat = 0x08 := by omega
          have h12 : ¬ c.toNat = 0x0C := by omega
          have hn : ¬ c = '\n' := fun h => by subst h; exact hlt (by decide)
          have ht : ¬ c = '\t' := fun h => by subst h; exact hlt (by decide)
          have hr : ¬ c = '\r' := fun h => by subst h; exact hlt (by decide)
          have hesc : escapeChar c = [c] := by
            simp only [escapeChar, if_neg hq, if_neg hb, if_neg hn, if_neg ht, if_neg hr,
              if_neg h8, if_neg h12, if_neg hlt]
          rw [hesc]
          simp only [List.cons_append, List.nil_append]
          simp only [parseStringBody]
          rw [if_neg hq, if_neg hb, if_neg hlt]
          rw [ih f _ _ hff]
          simp

theorem digitChar_isDigit {m : Nat} (h : m < 10) : isDigitChar (digitChar m) = true := by
  revert h
  revert m
  decide

theorem digitChar_toNat {m : Nat} (h : m < 10) : (digitChar m).toNat = m + 48 := by
  revert h
  revert m
  decide

theorem digitChar_ne_zero {m : Nat} (h1 : 1 ≤ m) (h2 : m < 10) : digitChar m ≠ '0' := by
  revert h1 h2
  revert m
  decide

theorem digitsVal_append_one (l : List Char) (d : Char) :
    digitsVal (l ++ [d]) = 10 * digitsVal l + (d.toNat - 48) := by
  simp [digitsVal, List.foldl_append]
  omega

/-- Decimal rendering produces a non-empty digit string whose value is the
number, without a leading zero for positive numbers. -/
theorem natToDecAux_spec : ∀ (n fuel : Nat) (acc : List Char), n < fuel →
    ∃ ds, natToDecAux fuel n acc = ds ++ acc ∧ ds ≠ [] ∧
      (∀ c ∈ ds, isDigitChar c = true) ∧ digitsVal ds = n ∧
      (1 ≤ n → ds.head? ≠ some '0') := by
  intro n
  induction n using Nat.strong_induction_on with
  | _ n ih =>
    intro fuel acc hf
    obtain ⟨f, rfl⟩ : ∃ f, fuel = f + 1 := ⟨fuel - 1, by omega⟩
    by_cases hn : n < 10
    · refine ⟨[digitChar n], by simp [natToDecAux, if_pos hn], by simp, ?_, ?_, ?_⟩
      · intro c hc
        rcases List.mem_singleton.mp hc with rfl
        exact digitChar_isDigit hn
      · simp [digitsVal]
        rw [digitChar_toNat hn]
        omega
      · intro h1
        simp only [List.head?_cons, ne_eq, Option.some.injEq]
        exact digitChar_ne_zero h1 hn
    · have hd1 : n / 10 < n := Nat.div_lt_self (by omega) (by omega)
      have hd2 : n / 10 < f := by omega
      obtain ⟨ds, hds, hne, hdig, hval, hz⟩ :=
        ih (n / 10) hd1 f (digitChar (n % 10) :: acc) hd2
      refine ⟨ds ++ [digitChar (n % 10)], ?_, by simp, ?_, ?_, ?_⟩
      · rw [show natToDecAux (f + 1) n acc =
              natToDecAux f (n / 10) (digitChar (n % 10) :: acc) from by
            simp [natToDecAux, if_neg hn]]
        rw [hds]
        simp
      · intro c hc
        rcases List.mem_append.mp hc with h2 | h2
        · exact hdig c h2
        · rcases List.mem_singleton.mp h2 with rfl
          exact digitChar_isDigit (by omega)
      · rw [digitsVal_append_one, hval, digitChar_toNat (by omega)]
        omega
      · intro _
        rcases ds with _ | ⟨d0, ds0⟩
        · exact absurd rfl hne
        · simpa using hz (by omega)

theorem natToDec_spec (n : Nat) :
    ∃ ds, natToDec n = ds ∧ ds ≠ [] ∧
      (∀ c ∈ ds, isDigitChar c = true) ∧ digitsVal ds = n ∧
      (1 ≤ n → ds.head? ≠ some '0') := by
  obtain ⟨ds, hds, hne, hdig, hval, hz⟩ := natToDecAux_spec n (n + 1) [] (by omega)
  exact ⟨ds, by simpa [natToDec] using hds, hne, hdig, hval, hz⟩

theorem isDigitChar_ne_minus {c : Char} (h : isDigitChar c = true) : c ≠ '-' := by
  intro he
  subst he
  simp [isDigitChar] at h

theorem takeWhile_nil_of_head {p : Char → Bool} {rest : List Char}
    (hrest : ∀ c r, rest = c :: r → p c = false) : rest.takeWhile p = [] := by
  cases rest with
  | nil => rfl
  | cons c r => simp [List.takeWhile_cons, hrest c r rfl]

theorem dropWhile_self_of_head {p : Char → Bool} {rest : List Char}
    (hrest : ∀ c r, rest = c :: r → p c = false) : rest.dropWhile p = rest := by
  cases rest with
  | nil => rfl
  | cons c r => simp [List.dropWhile_cons, hrest c r rfl]

theorem skipWs_append_ws {pre : List Char} (h : pre.all jsonWsChar = true)
    (x : List Char) : skipWs (pre ++ x) = skipWs x := by
  simp only [skipWs]
  rw [List.dropWhile_append_of_pos (fun c hc => List.all_eq_true.mp h c hc)]

theorem toNat_ne {c d : Char} (h : c.toNat ≠ d.toNat) : c ≠ d :=
  fun he => h (by rw [he])

theorem isDigitChar_bounds {c : Char} (h : isDigitChar c = true) :
    48 ≤ c.toNat ∧ c.toNat ≤ 57 := by
  simp only [isDigitChar, Bool.decide_and, Bool.and_eq_true, decide_eq_true_eq] at h
  obtain ⟨h1, h2⟩ := h
  exact ⟨h1, h2⟩

theorem digit_not_ws {c : Char} (h : isDigitChar c = true) : jsonWsChar c = false := by
  obtain ⟨h1, h2⟩ := isDigitChar_bounds h
  rw [Bool.eq_false_iff]
  intro hw
  have hw2 : c = ' ' ∨ c = '\t' ∨ c = '\n' ∨ c = '\x0d' := by
    simpa [jsonWsChar] using hw
  rcases hw2 with rfl | rfl | rfl | rfl <;> exact absurd h (by decide)

/-- The first character written for any value: never whitespace, never a
closing bracket. -/
theorem serializeOut_cons (v : Json) :
    ∃ c t, serializeOut v = c :: t ∧ jsonWsChar c = false ∧ c ≠ ']' := by
  cases v with
  | null => exact ⟨'n', _, rfl, by decide, by decide⟩
  | bool b =>
    cases b with
    | true => exact ⟨'t', _, rfl, by decide, by decide⟩
    | false => exact ⟨'f', _, rfl, by decide, by decide⟩
  | str s => exact ⟨'"', _, rfl, by decide, by decide⟩
  | arr xs => exact ⟨'[', _, rfl, by decide, by decide⟩
  | obj fs => exact ⟨lbrace, _, rfl, by decide, by decide⟩
  | num n =>
    cases n with
    | negSucc m => exact ⟨'-', _, rfl, by decide, by decide⟩
    | ofNat m =>
      obtain ⟨ds, hds, hne, hdig, _, _⟩ := natToDec_spec m
      rcases ds with _ | ⟨c, ds0⟩
      · exact absurd rfl hne
      · have hc : isDigitChar c = true := hdig c (by simp)
        obtain ⟨hb1, hb2⟩ := isDigitChar_bounds hc
        refine ⟨c, ds0, ?_, digit_not_ws hc, toNat_ne (by
          have : (']' : Char).toNat = 93 := by decide
          omega)⟩
        simpa [serializeOut, dumps, intToDec] using hds

theorem elemsBody_eq (xs : List Json) :
    List.intercalate ", ".data (dumpsList ", ".data ": ".data xs) = elemsBody xs := by
  induction xs with
  | nil => rfl
  | cons x t ih =>
    cases t with
    | nil => simp [dumpsList, elemsBody, List.intercalate, serializeOut]
    | cons y zs =>
      rw [show dumpsList ", ".data ": ".data (x :: y :: zs) =
          dumps ", ".data ": ".data x :: dumps ", ".data ": ".data y ::
            dumpsList ", ".data ": ".data zs from rfl]
      rw [intercalate_cons₂]
      rw [show dumps ", ".data ": ".data y :: dumpsList ", ".data ": ".data zs =
          dumpsList ", ".data ": ".data (y :: zs) from rfl]
      rw [ih]
      rw [show elemsBody (x :: y :: zs) =
        serializeOut x ++ ',' :: ' ' :: elemsBody (y :: zs) from rfl]
      simp [serializeOut]

theorem membersTail_eq (k : String) (v : Json) (fs : List (String × Json)) :
    List.intercalate ", ".data (dumpsFields ", ".data ": ".data ((k, v) :: fs)) =
      '"' :: membersTail ((k, v) :: fs) := by
  induction fs generalizing k v with
  | nil =>
    simp [dumpsFields, List.intercalate, membersTail, encodeString, serializeOut]
  | cons p t ih =>
    rcases p with ⟨k2, v2⟩
    rw [show dumpsFields ", ".data ": ".data ((k, v) :: (k2, v2) :: t) =
        (encodeString k ++ ": ".data ++ dumps ", ".data ": ".data v) ::
          (encodeString k2 ++ ": ".data ++ dumps ", ".data ": ".data v2) ::
          dumpsFields ", ".data ": ".data t from rfl]
    rw [intercalate_cons₂]
    rw [show (encodeString k2 ++ ": ".data ++ dumps ", ".data ": ".data v2) ::
        dumpsFields ", ".data ": ".data t =
        dumpsFields ", ".data ": ".data ((k2, v2) :: t) from rfl]
    rw [ih k2 v2]
    rw [show membersTail ((k, v) :: (k2, v2) :: t) =
        k.data.flatMap escapeChar ++ '"' :: ':' :: ' ' ::
          (serializeOut v ++ ',' :: ' ' :: '"' :: membersTail ((k2, v2) :: t)) from rfl]
    simp [encodeString, serializeOut]

theorem upsert_append {acc : List (String × Json)} {k : String} (v : Json)
    (h : ∀ p ∈ acc, p.1 ≠ k) : upsert acc k v = acc ++ [(k, v)] := by
  have hany : acc.any (fun p => p.1 = k) = false := by
    rw [List.any_eq_false]
    intro p hp
    simpa using h p hp
  simp [upsert, hany]

theorem weight_pos (v : Json) : 1 ≤ weight v := by
  cases v <;> (simp only [weight]; omega)

theorem weightList_pos {xs : List Json} (h : xs ≠ []) : 1 ≤ weightList xs := by
  cases xs with
  | nil => exact absurd rfl h
  | cons x t => simp only [weightList]; omega

theorem weightFields_pos {fs : List (String × Json)} (h : fs ≠ []) :
    1 ≤ weightFields fs := by
  cases fs with
  | nil => exact absurd rfl h
  | cons p t =>
    rcases p with ⟨k, v⟩
    simp only [weightFields]
    omega

/-- Scanning back the digit part of an integer numeral. -/
theorem parseIntDigits_rt (neg : Bool) (m : Nat) (rest : List Char)
    (hrest : ∀ c r, rest = c :: r → isDigitChar c = false) :
    parseIntDigits neg (natToDec m ++ rest) =
      some (if neg then -(Int.ofNat m) else Int.ofNat m, rest) := by
  by_cases hm : m = 0
  · subst hm
    rw [show natToDec 0 = ['0'] from rfl]
    simp only [List.cons_append, List.nil_append, parseIntDigits, if_pos rfl]
    cases neg <;> simp
  · obtain ⟨ds, hds, hne, hdig, hval, hz⟩ := natToDec_spec m
    rcases ds with _ | ⟨c, ds0⟩
    · exact absurd rfl hne
    · have hcdig : isDigitChar c = true := hdig c (by simp)
      have hc0 : c ≠ '0' := by simpa using hz (by omega)
      rw [hds]
      simp only [List.cons_append, parseIntDigits]
      rw [if_neg hc0, if_pos hcdig]
      have htake : (ds0 ++ rest).takeWhile isDigitChar = ds0 := by
        rw [List.takeWhile_append_of_pos (fun c hc => hdig c (by simp [hc])),
          takeWhile_nil_of_head hrest]
        simp
      have hdrop : (ds0 ++ rest).dropWhile isDigitChar = rest := by
        rw [List.dropWhile_append_of_pos (fun c hc => hdig c (by simp [hc])),
          dropWhile_self_of_head hrest]
      rw [htake, hdrop]
      simp [hval]

/-- Scanning back an integer numeral written by `str(int)`. -/
theorem parseIntToken_rt (i : Int) (rest : List Char)
    (hrest : ∀ c r, rest = c :: r → isDigitChar c = false) :
    parseIntToken (intToDec i ++ rest) = some (i, rest) := by
  cases i with
  | ofNat m =>
    obtain ⟨ds, hds, hne, hdig, hval, hz⟩ := natToDec_spec m
    rcases ds with _ | ⟨c, ds0⟩
    · exact absurd rfl hne
    · have hcm : ¬ c = '-' := isDigitChar_ne_minus (hdig c (by simp))
      rw [show intToDec (Int.ofNat m) = natToDec m from rfl, hds]
      simp only [List.cons_append, parseIntToken]
      rw [if_neg hcm]
      rw [show c :: (ds0 ++ rest) = natToDec m ++ rest from by rw [hds]; rfl]
      rw [parseIntDigits_rt false m rest hrest]
      simp
  | negSucc m =>
    rw [show intToDec (Int.negSucc m) = '-' :: natToDec (m + 1) from rfl]
    rw [show parseIntToken ('-' :: natToDec (m + 1) ++ rest) =
        parseIntDigits true (natToDec (m + 1) ++ rest) from rfl]
    rw [parseIntDigits_rt true (m + 1) rest hrest]
    rw [show -(Int.ofNat (m + 1)) = Int.negSucc m from by
      rw [Int.negSucc_eq]
      simp]
    simp

theorem numHead_conds {c : Char} (h : isDigitChar c = true ∨ c = '-') :
    ¬c = lbrace ∧ ¬c = '[' ∧ ¬c = '"' ∧ ¬c = 't' ∧ ¬c = 'f' ∧ ¬c = 'n' ∧
      jsonWsChar c = false := by
  rcases h with h | rfl
  · obtain ⟨h1, h2⟩ := isDigitChar_bounds h
    refine ⟨?_, ?_, ?_, ?_, ?_, ?_, digit_not_ws h⟩ <;>
      exact toNat_ne (by
        simp only [show (lbrace).toNat = 123 from rfl, show ('[' : Char).toNat = 91 from rfl,
          show ('"' : Char).toNat = 34 from rfl, show ('t' : Char).toNat = 116 from rfl,
          show ('f' : Char).toNat = 102 from rfl, show ('n' : Char).toNat = 110 from rfl]
        omega)
  · exact ⟨by decide, by decide, by decide, by decide, by decide, by decide, by decide⟩

theorem intToDec_head (n : Int) :
    ∃ c t, intToDec n = c :: t ∧ (isDigitChar c = true ∨ c = '-') := by
  cases n with
  | ofNat m =>
    obtain ⟨ds, hds, hne, hdig, _, _⟩ := natToDec_spec m
    rcases ds with _ | ⟨c, t⟩
    · exact absurd rfl hne
    · exact ⟨c, t, by simpa [intToDec] using hds, Or.inl (hdig c (by simp))⟩
  | negSucc m => exact ⟨'-', natToDec (m + 1), rfl, Or.inr rfl⟩

theorem keys_head_fresh {acc : List (String × Json)} {k : String} {l : List String}
    (h : (acc.map Prod.fst ++ k :: l).Nodup) : ∀ p ∈ acc, p.1 ≠ k := by
  intro p hp he
  exact List.disjoint_of_nodup_append h (List.mem_map_of_mem Prod.fst hp)
    (by rw [he]; exact List.mem_cons_self _ _)

/-- Round-trip: the scanner reads back exactly what the serializer wrote.
Stated for all four mutual scanners at once and proved by induction on
fuel. -/
theorem parse_rt : ∀ fuel : Nat,
    (∀ pre v rest, pre.all jsonWsChar = true → wfKeys v = true →
      (∀ c r, rest = c :: r → isDigitChar c = false) → weight v ≤ fuel →
      parseValue fuel (pre ++ serializeOut v ++ rest) = some (v, rest)) ∧
    (∀ fs rest, (fs.map Prod.fst).Nodup → wfKeysFields fs = true →
      weightFields fs + 1 ≤ fuel →
      parseObjStart fuel
        (List.intercalate ", ".data (dumpsFields ", ".data ": ".data fs) ++
          rbrace :: rest) = some (.obj fs, rest)) ∧
    (∀ fs acc rest, fs ≠ [] → ((acc ++ fs).map Prod.fst).Nodup →
      wfKeysFields fs = true → weightFields fs ≤ fuel →
      parseMembers fuel (membersTail fs ++ rbrace :: rest) acc =
        some (.obj (acc ++ fs), rest)) ∧
    (∀ pre xs acc rest, pre.all jsonWsChar = true → xs ≠ [] →
      wfKeysList xs = true → weightList xs ≤ fuel →
      parseElems fuel (pre ++ elemsBody xs ++ ']' :: rest) acc =
        some (.arr (acc.reverse ++ xs), rest)) := by
  intro fuel
  induction fuel with
  | zero =>
    refine ⟨?_, ?_, ?_, ?_⟩
    · intro pre v rest _ _ _ hwt
      exact absurd hwt (by have := weight_pos v; omega)
    · intro fs rest _ _ hwt
      exact absurd hwt (by omega)
    · intro fs acc rest hne _ _ hwt
      exact absurd hwt (by have := weightFields_pos hne; omega)
    · intro pre xs acc rest _ hne _ hwt
      exact absurd hwt (by have := weightList_pos hne; omega)
  | succ f ih =>
    obtain ⟨ih1, ih2, ih3, ih4⟩ := ih
    refine ⟨?_, ?_, ?_, ?_⟩
    ·
      intro pre v rest hpre hwf hrest hwt
      cases v with
      | null =>
        have hlit : serializeOut Json.null = 'n' :: ['u', 'l', 'l'] := by decide
        have hsk : skipWs (pre ++ serializeOut Json.null ++ rest) =
            'n' :: (['u', 'l', 'l'] ++ rest) := by
          rw [hlit, List.append_assoc, skipWs_append_ws hpre, List.cons_append]
          exact skipWs_cons_not (by decide) _
        simp only [parseValue, hsk, show ('n' = lbrace) = False from by decide,
          show ('n' = '[') = False from by decide, show ('n' = '"') = False from by decide,
          show ('n' = 't') = False from by decide, show ('n' = 'f') = False from by decide,
          eq_self_iff_true, if_false, if_true, List.cons_append, List.nil_append]
      | bool b =>
        cases b with
        | true =>
          have hlit : serializeOut (Json.bool true) = 't' :: ['r', 'u', 'e'] := by decide
          have hsk : skipWs (pre ++ serializeOut (Json.bool true) ++ rest) =
              't' :: (['r', 'u', 'e'] ++ rest) := by
            rw [hlit, List.append_assoc, skipWs_append_ws hpre, List.cons_append]
            exact skipWs_cons_not (by decide) _
          simp only [parseValue, hsk, show ('t' = lbrace) = False from by decide,
            show ('t' = '[') = False from by decide, show ('t' = '"') = False from by decide,
            eq_self_iff_true, if_false, if_true, List.cons_append, List.nil_append]
        | false =>
          have hlit : serializeOut (Json.bool false) = 'f' :: ['a', 'l', 's', 'e'] := by decide
          have hsk : skipWs (pre ++ serializeOut (Json.bool false) ++ rest) =
              'f' :: (['a', 'l', 's', 'e'] ++ rest) := by
            rw [hlit, List.append_assoc, skipWs_append_ws hpre, List.cons_append]
            exact skipWs_cons_not (by decide) _
          simp only [parseValue, hsk, show ('f' = lbrace) = False from by decide,
            show ('f' = '[') = False from by decide, show ('f' = '"') = False from by decide,
            show ('f' = 't') = False from by decide,
            eq_self_iff_true, if_false, if_true, List.cons_append, List.nil_append]
      | str s =>
        have hlit : serializeOut (Json.str s) = '"' :: (s.data.flatMap escapeChar ++ ['"']) := rfl
        have hsk : skipWs (pre ++ serializeOut (Json.str s) ++ rest) =
            '"' :: (s.data.flatMap escapeChar ++ '"' :: rest) := by
          rw [hlit, List.append_assoc, skipWs_append_ws hpre, List.cons_append,
            List.append_assoc, List.singleton_append]
          exact skipWs_cons_not (by decide) _
        have hfuel : s.data.length + 1 ≤ (s.data.flatMap escapeChar ++ '"' :: rest).length + 1 := by
          have := flatMap_escape_length s.data
          simp only [List.length_append, List.length_cons]
          omega
        have hps := parseStringBody_rt s.data
          ((s.data.flatMap escapeChar ++ '"' :: rest).length + 1) [] rest hfuel
        have hmk : String.mk s.data = s := rfl
        simp only [parseValue, hsk, show ('"' = lbrace) = False from by decide,
          show ('"' = '[') = False from by decide,
          eq_self_iff_true, if_false, if_true, hps, List.reverse_nil, List.nil_append, hmk]
      | num n =>
        obtain ⟨c, t, hct, hcd⟩ := intToDec_head n
        obtain ⟨hc1, hc2, hc3, hc4, hc5, hc6, hcw⟩ := numHead_conds hcd
        have hlit : serializeOut (Json.num n) = c :: t := by
          rw [show serializeOut (Json.num n) = intToDec n from rfl, hct]
        have hsk : skipWs (pre ++ serializeOut (Json.num n) ++ rest) = c :: (t ++ rest) := by
          rw [hlit, List.append_assoc, skipWs_append_ws hpre, List.cons_append]
          exact skipWs_cons_not hcw _
        have hfold : c :: (t ++ rest) = intToDec n ++ rest := by
          rw [hct, List.cons_append]
        simp only [parseValue, hsk, eq_false hc1, eq_false hc2, eq_false hc3, eq_false hc4,
          eq_false hc5, eq_false hc6, if_false]
        rw [hfold, parseIntToken_rt n rest hrest]
      | arr xs =>
        cases xs with
        | nil =>
          have hlit : serializeOut (Json.arr []) = '[' :: [']'] := by decide
          have hsk : skipWs (pre ++ serializeOut (Json.arr []) ++ rest) =
              '[' :: ([']'] ++ rest) := by
            rw [hlit, List.append_assoc, skipWs_append_ws hpre, List.cons_append]
            exact skipWs_cons_not (by decide) _
          have hsk2 : skipWs ([']'] ++ rest) = ']' :: rest := by
            rw [List.singleton_append]
            exact skipWs_cons_not (by decide) _
          simp only [parseValue, hsk, show ('[' = lbrace) = False from by decide,
            eq_self_iff_true, if_false, if_true, hsk2]
        | cons x xs =>
          obtain ⟨c, t, hct, hcw2, hcbr⟩ := serializeOut_cons x
          have hlit : serializeOut (Json.arr (x :: xs)) =
              '[' :: (elemsBody (x :: xs) ++ [']']) := by
            rw [show serializeOut (Json.arr (x :: xs)) = '[' ::
              (List.intercalate ", ".data (dumpsList ", ".data ": ".data (x :: xs)) ++ [']'])
              from rfl, elemsBody_eq]
          have hE : ∃ T, elemsBody (x :: xs) ++ ']' :: rest = c :: (t ++ T) := by
            cases xs with
            | nil =>
              refine ⟨']' :: rest, ?_⟩
              rw [show elemsBody [x] = serializeOut x from rfl, hct]
              simp [List.cons_append]
            | cons y ys =>
              refine ⟨',' :: ' ' :: elemsBody (y :: ys) ++ ']' :: rest, ?_⟩
              rw [show elemsBody (x :: y :: ys) =
                serializeOut x ++ ',' :: ' ' :: elemsBody (y :: ys) from rfl, hct]
              simp [List.cons_append, List.append_assoc]
          obtain ⟨T, hE⟩ := hE
          have hsk : skipWs (pre ++ serializeOut (Json.arr (x :: xs)) ++ rest) =
              '[' :: (elemsBody (x :: xs) ++ ']' :: rest) := by
            rw [hlit, List.append_assoc, skipWs_append_ws hpre, List.cons_append,
              List.append_assoc, List.singleton_append]
            exact skipWs_cons_not (by decide) _
          have hsk2 : skipWs (elemsBody (x :: xs) ++ ']' :: rest) =
              elemsBody (x :: xs) ++ ']' :: rest := by
            rw [hE]
            exact skipWs_cons_not hcw2 _
          have hwfl : wfKeysList (x :: xs) = true := by simpa [wfKeys] using hwf
          have hwtl : weightList (x :: xs) ≤ f := by
            simp only [weight] at hwt
            omega
          have hel := ih4 [] (x :: xs) [] rest (by decide) (by simp) hwfl hwtl
          simp only [List.nil_append, List.reverse_nil] at hel
          simp only [parseValue, hsk, show ('[' = lbrace) = False from by decide,
            eq_self_iff_true, if_false, if_true, hsk2]
          rw [hE]
          simp only [eq_false hcbr, if_false]
          rw [← hE, hel]
      | obj fs =>
        have hlit : serializeOut (Json.obj fs) =
            lbrace :: (List.intercalate ", ".data (dumpsFields ", ".data ": ".data fs) ++
              [rbrace]) := rfl
        have hsk : skipWs (pre ++ serializeOut (Json.obj fs) ++ rest) =
            lbrace :: (List.intercalate ", ".data (dumpsFields ", ".data ": ".data fs) ++
              rbrace :: rest) := by
          rw [hlit, List.append_assoc, skipWs_append_ws hpre, List.cons_append,
            List.append_assoc, List.singleton_append]
          exact skipWs_cons_not (by decide) _
        have hnd : (fs.map Prod.fst).Nodup := by
          have h2 := hwf
          simp only [wfKeys, Bool.decide_and, Bool.and_eq_true, decide_eq_true_eq] at h2
          exact h2.1
        have hwff : wfKeysFields fs = true := by
          have h2 := hwf
          simp only [wfKeys, Bool.decide_and, Bool.and_eq_true, decide_eq_true_eq] at h2
          exact h2.2
        have hwtf : weightFields fs + 1 ≤ f := by
          simp only [weight] at hwt
          omega
        simp only [parseValue, hsk, eq_self_iff_true, if_true]
        exact ih2 fs rest hnd hwff hwtf
    ·
      intro fs rest hnd hwf hwt
      cases fs with
      | nil =>
        rw [show List.intercalate ", ".data
          (dumpsFields ", ".data ": ".data ([] : List (String × Json))) = [] from rfl,
          List.nil_append]
        have hsk : skipWs (rbrace :: rest) = rbrace :: rest := skipWs_cons_not (by decide) _
        simp only [parseObjStart, hsk, eq_self_iff_true, if_true]
      | cons p fs' =>
        rcases p with ⟨k, v⟩
        rw [membersTail_eq k v fs', List.cons_append]
        have hsk : skipWs ('"' :: (membersTail ((k, v) :: fs') ++ rbrace :: rest)) =
            '"' :: (membersTail ((k, v) :: fs') ++ rbrace :: rest) :=
          skipWs_cons_not (by decide) _
        simp only [parseObjStart, hsk, show ('"' = rbrace) = False from by decide,
          eq_self_iff_true, if_false, if_true]
        have h3 := ih3 ((k, v) :: fs') [] rest (by simp) (by simpa using hnd) hwf (by omega)
        simpa using h3
    ·
      intro fs acc rest hne hnd hwf hwt
      rcases fs with _ | ⟨⟨k, v⟩, fs'⟩
      · exact absurd rfl hne
      have hwfv : wfKeys v = true := by
        simp only [wfKeysFields, Bool.decide_and, Bool.and_eq_true, decide_eq_true_eq] at hwf
        exact hwf.1
      have hwff' : wfKeysFields fs' = true := by
        simp only [wfKeysFields, Bool.decide_and, Bool.and_eq_true, decide_eq_true_eq] at hwf
        exact hwf.2
      have hkacc : ∀ p ∈ acc, p.1 ≠ k := by
        apply keys_head_fresh (l := fs'.map Prod.fst)
        simpa using hnd
      have hmk : String.mk k.data = k := rfl
      cases fs' with
      | nil =>
        have hshape : membersTail [(k, v)] ++ rbrace :: rest =
            k.data.flatMap escapeChar ++ '"' ::
              (':' :: ' ' :: (serializeOut v ++ rbrace :: rest)) := by
          rw [show membersTail [(k, v)] =
            k.data.flatMap escapeChar ++ '"' :: ':' :: ' ' :: (serializeOut v ++ []) from rfl]
          simp [List.append_assoc]
        rw [hshape]
        have hfuel : k.data.length + 1 ≤
            (k.data.flatMap escapeChar ++ '"' ::
              (':' :: ' ' :: (serializeOut v ++ rbrace :: rest))).length + 1 := by
          have := flatMap_escape_length k.data
          simp only [List.length_append, List.length_cons]
          omega
        have hps := parseStringBody_rt k.data
          ((k.data.flatMap escapeChar ++ '"' ::
            (':' :: ' ' :: (serializeOut v ++ rbrace :: rest))).length + 1) []
          (':' :: ' ' :: (serializeOut v ++ rbrace :: rest)) hfuel
        simp only [List.reverse_nil, List.nil_append, hmk] at hps
        have hsk1 : skipWs (':' :: ' ' :: (serializeOut v ++ rbrace :: rest)) =
            ':' :: (' ' :: (serializeOut v ++ rbrace :: rest)) := skipWs_cons_not (by decide) _
        have hpv := ih1 [' '] v (rbrace :: rest) (by decide) hwfv
          (by intro c r h; injection h with h1 h2; rw [← h1]; decide)
          (by simp only [weightFields] at hwt; omega)
        simp only [List.cons_append, List.nil_append, List.append_assoc,
          List.singleton_append] at hpv
        have hsk2 : skipWs (rbrace :: rest) = rbrace :: rest := skipWs_cons_not (by decide) _
        simp only [parseMembers, hps, hsk1, hpv, upsert_append v hkacc, hsk2]
        split
        · next r4 heq =>
          exfalso
          injection heq with h1 h2
          exact absurd h1 (by decide)
        · next c r4 hne2 heq =>
          injection heq with h1 h2
          rw [← h1, if_pos rfl, ← h2]
        · next heq =>
          exact absurd heq (by simp)
      | cons p2 fs'' =>
        have hshape : membersTail ((k, v) :: p2 :: fs'') ++ rbrace :: rest =
            k.data.flatMap escapeChar ++ '"' ::
              (':' :: ' ' :: (serializeOut v ++
                ',' :: ' ' :: '"' :: (membersTail (p2 :: fs'') ++ rbrace :: rest))) := by
          rw [show membersTail ((k, v) :: p2 :: fs'') =
            k.data.flatMap escapeChar ++ '"' :: ':' :: ' ' ::
              (serializeOut v ++ ',' :: ' ' :: '"' :: membersTail (p2 :: fs'')) from rfl]
          simp [List.append_assoc]
        rw [hshape]
        have hfuel : k.data.length + 1 ≤
            (k.data.flatMap escapeChar ++ '"' ::
              (':' :: ' ' :: (serializeOut v ++
                ',' :: ' ' :: '"' :: (membersTail (p2 :: fs'') ++ rbrace :: rest)))).length + 1 := by
          have := flatMap_escape_length k.data
          simp only [List.length_append, List.length_cons]
          omega
        have hps := parseStringBody_rt k.data
          ((k.data.flatMap escapeChar ++ '"' ::
            (':' :: ' ' :: (serializeOut v ++
              ',' :: ' ' :: '"' :: (membersTail (p2 :: fs'') ++ rbrace :: rest)))).length + 1) []
          (':' :: ' ' :: (serializeOut v ++
            ',' :: ' ' :: '"' :: (membersTail (p2 :: fs'') ++ rbrace :: rest))) hfuel
        simp only [List.reverse_nil, List.nil_append, hmk] at hps
        have hsk1 : skipWs (':' :: ' ' :: (serializeOut v ++
            ',' :: ' ' :: '"' :: (membersTail (p2 :: fs'') ++ rbrace :: rest))) =
            ':' :: (' ' :: (serializeOut v ++
              ',' :: ' ' :: '"' :: (membersTail (p2 :: fs'') ++ rbrace :: rest))) :=
          skipWs_cons_not (by decide) _
        have hpv := ih1 [' '] v
          (',' :: ' ' :: '"' :: (membersTail (p2 :: fs'') ++ rbrace :: rest)) (by decide) hwfv
          (by intro c r h; injection h with h1 h2; rw [← h1]; decide)
          (by simp only [weightFields] at hwt; omega)
        simp only [List.cons_append, List.nil_append, List.append_assoc,
          List.singleton_append] at hpv
        have hsk2 : skipWs (',' :: ' ' :: '"' :: (membersTail (p2 :: fs'') ++ rbrace :: rest)) =
            ',' :: (' ' :: '"' :: (membersTail (p2 :: fs'') ++ rbrace :: rest)) :=
          skipWs_cons_not (by decide) _
        have hsk3 : skipWs (' ' :: '"' :: (membersTail (p2 :: fs'') ++ rbrace :: rest)) =
            '"' :: (membersTail (p2 :: fs'') ++ rbrace :: rest) := by
          rw [skipWs_cons_ws (by decide)]
          exact skipWs_cons_not (by decide) _
        have h3 := ih3 (p2 :: fs'') (acc ++ [(k, v)]) rest (by simp)
          (by simpa [List.append_assoc] using hnd) hwff'
          (by simp only [weightFields] at hwt ⊢; have := weight_pos v; omega)
        simp only [parseMembers, hps, hsk1, hpv, upsert_append v hkacc, hsk2, hsk3, h3]
        simp [List.append_assoc]
    ·
      intro pre xs acc rest hpre hne hwf hwt
      rcases xs with _ | ⟨x, xs'⟩
      · exact absurd rfl hne
      have hwfx : wfKeys x = true := by
        simp only [wfKeysList, Bool.decide_and, Bool.and_eq_true, decide_eq_true_eq] at hwf
        exact hwf.1
      have hwfl' : wfKeysList xs' = true := by
        simp only [wfKeysList, Bool.decide_and, Bool.and_eq_true, decide_eq_true_eq] at hwf
        exact hwf.2
      cases xs' with
      | nil =>
        have hshape : pre ++ elemsBody [x] ++ ']' :: rest =
            pre ++ serializeOut x ++ ']' :: rest := by
          rw [show elemsBody [x] = serializeOut x from rfl]
        rw [hshape]
        have hpv := ih1 pre x (']' :: rest) hpre hwfx
          (by intro c r h; injection h with h1 h2; rw [← h1]; decide)
          (by simp only [weightList] at hwt; omega)
        have hsk : skipWs (']' :: rest) = ']' :: rest := skipWs_cons_not (by decide) _
        simp only [parseElems, hpv, hsk]
        simp
      | cons y ys =>
        have hshape : pre ++ elemsBody (x :: y :: ys) ++ ']' :: rest =
            pre ++ serializeOut x ++
              (',' :: ' ' :: (elemsBody (y :: ys) ++ ']' :: rest)) := by
          rw [show elemsBody (x :: y :: ys) =
            serializeOut x ++ ',' :: ' ' :: elemsBody (y :: ys) from rfl]
          simp [List.append_assoc]
        rw [hshape]
        have hpv := ih1 pre x (',' :: ' ' :: (elemsBody (y :: ys) ++ ']' :: rest)) hpre hwfx
          (by intro c r h; injection h with h1 h2; rw [← h1]; decide)
          (by simp only [weightList] at hwt; omega)
        have hsk : skipWs (',' :: ' ' :: (elemsBody (y :: ys) ++ ']' :: rest)) =
            ',' :: (' ' :: (elemsBody (y :: ys) ++ ']' :: rest)) := skipWs_cons_not (by decide) _
        have h4 := ih4 [' '] (y :: ys) (x :: acc) rest (by decide) (by simp) hwfl'
          (by simp only [weightList] at hwt ⊢; omega)
        simp only [List.cons_append, List.nil_append, List.append_assoc,
          List.singleton_append] at h4
        simp only [parseElems, hpv, hsk, h4]
        simp

mutual

theorem weight_le (isep ksep : List Char) (hi : 1 ≤ isep.length) :
    ∀ v : Json, weight v ≤ (dumps isep ksep v).length
  | .null => by simp [weight, dumps]
  | .bool b => by cases b <;> simp [weight, dumps]
  | .num n => by
    obtain ⟨c, t, hct, _⟩ := intToDec_head n
    simp [weight, dumps, hct]
  | .str s => by simp [weight, dumps, encodeString]
  | .arr xs => by
    have h := weightList_le isep ksep hi xs
    simp only [weight, dumps, List.length_cons, List.length_append]
    simp only [List.length_cons, List.length_nil] at *
    omega
  | .obj fs => by
    have h := weightFields_le isep ksep hi fs
    simp only [weight, dumps, List.length_cons, List.length_append]
    simp only [List.length_cons, List.length_nil] at *
    omega

theorem weightList_le (isep ksep : List Char) (hi : 1 ≤ isep.length) :
    ∀ xs : List Json,
      weightList xs ≤ (List.intercalate isep (dumpsList isep ksep xs)).length + 1
  | [] => by simp [weightList, dumpsList, List.intercalate]
  | [x] => by
    have h := weight_le isep ksep hi x
    simp only [weightList, weightList, dumpsList, dumpsList, List.intercalate]
    simp only [List.intersperse_singleton, List.flatten, List.append_nil, weightList]
    omega
  | x :: y :: zs => by
    have h1 := weight_le isep ksep hi x
    have h2 := weightList_le isep ksep hi (y :: zs)
    rw [show dumpsList isep ksep (x :: y :: zs) =
      dumps isep ksep x :: dumps isep ksep y :: dumpsList isep ksep zs from rfl,
      intercalate_cons₂,
      show dumps isep ksep y :: dumpsList isep ksep zs =
        dumpsList isep ksep (y :: zs) from rfl]
    simp only [weightList] at h2
    simp only [weightList, List.length_append]
    omega

theorem weightFields_le (isep ksep : List Char) (hi : 1 ≤ isep.length) :
    ∀ fs : List (String × Json),
      weightFields fs ≤ (List.intercalate isep (dumpsFields isep ksep fs)).length
  | [] => by simp [weightFields, dumpsFields, List.intercalate]
  | [(k, v)] => by
    have h := weight_le isep ksep hi v
    simp only [weightFields, weightFields, dumpsFields, dumpsFields, List.intercalate]
    simp only [List.intersperse_singleton, List.flatten, List.append_nil,
      List.length_append, encodeString, List.length_cons]
    omega
  | (k, v) :: p :: fs => by
    have h1 := weight_le isep ksep hi v
    have h2 := weightFields_le isep ksep hi (p :: fs)

    rcases p with ⟨k2, v2⟩
    rw [show dumpsFields isep ksep ((k, v) :: (k2, v2) :: fs) =
      (encodeString k ++ ksep ++ dumps isep ksep v) ::
        (encodeString k2 ++ ksep ++ dumps isep ksep v2) :: dumpsFields isep ksep fs
      from rfl, intercalate_cons₂,
      show (encodeString k2 ++ ksep ++ dumps isep ksep v2) :: dumpsFields isep ksep fs =
        dumpsFields isep ksep ((k2, v2) :: fs) from rfl]
    simp only [weightFields] at h2
    simp only [weightFields, List.length_append, encodeString, List.length_cons]
    omega

end

theorem weight_le_length (v : Json) : weight v ≤ (serializeOut v).length :=
  weight_le ", ".data ": ".data (by decide) v

theorem wfKeysList_iff (xs : List Json) :
    wfKeysList xs = true ↔ ∀ x ∈ xs, wfKeys x = true := by
  induction xs with
  | nil => simp [wfKeysList]
  | cons x t ih =>
    simp only [wfKeysList, Bool.decide_and, Bool.and_eq_true, decide_eq_true_eq,
      List.mem_cons]
    constructor
    · rintro ⟨h1, h2⟩ y (rfl | hy)
      · exact h1
      · exact (ih.mp h2) y hy
    · intro h
      exact ⟨h x (Or.inl rfl), ih.mpr (fun y hy => h y (Or.inr hy))⟩

theorem wfKeysFields_iff (fs : List (String × Json)) :
    wfKeysFields fs = true ↔ ∀ p ∈ fs, wfKeys p.2 = true := by
  induction fs with
  | nil => simp [wfKeysFields]
  | cons p t ih =>
    rcases p with ⟨k, v⟩
    simp only [wfKeysFields, Bool.decide_and, Bool.and_eq_true, decide_eq_true_eq,
      List.mem_cons]
    constructor
    · rintro ⟨h1, h2⟩ q (rfl | hq)
      · exact h1
      · exact (ih.mp h2) q hq
    · intro h
      exact ⟨h (k, v) (Or.inl rfl), ih.mpr (fun q hq => h q (Or.inr hq))⟩

theorem upsert_keys_nodup {acc : List (String × Json)} {k : String} (v : Json)
    (h : (acc.map Prod.fst).Nodup) : ((upsert acc k v).map Prod.fst).Nodup := by
  simp only [upsert]
  split
  · have : (acc.map (fun p => if p.1 = k then (k, v) else p)).map Prod.fst =
        acc.map Prod.fst := by
      rw [List.map_map]
      apply List.map_congr_left
      intro p hp
      by_cases hpk : p.1 = k
      · simp [Function.comp, hpk]
      · simp [Function.comp, hpk]
    rw [this]
    exact h
  · next hany =>
    rw [Bool.not_eq_true, List.any_eq_false] at hany
    simp only [List.map_append, List.map_cons, List.map_nil]
    rw [List.nodup_append]
    refine ⟨h, List.nodup_singleton k, ?_⟩
    intro a ha
    simp only [List.mem_singleton]
    intro hak
    obtain ⟨p, hp, hpa⟩ := List.mem_map.mp ha
    exact absurd (by rw [← hpa] at hak; simpa using hak) (by simpa using hany p hp)

theorem upsert_wf {acc : List (String × Json)} {k : String} {v : Json}
    (ha : wfKeysFields acc = true) (hv : wfKeys v = true) :
    wfKeysFields (upsert acc k v) = true := by
  rw [wfKeysFields_iff] at ha ⊢
  simp only [upsert]
  split
  · intro p hp
    obtain ⟨q, hq, hqp⟩ := List.mem_map.mp hp
    by_cases hqk : q.1 = k
    · rw [if_pos hqk] at hqp
      rw [← hqp]
      exact hv
    · rw [if_neg hqk] at hqp
      rw [← hqp]
      exact ha q hq
  · intro p hp
    rcases List.mem_append.mp hp with hp2 | hp2
    · exact ha p hp2
    · rw [List.mem_singleton] at hp2
      rw [hp2]
      exact hv

/-- Every value any of the four scanners returns has pairwise-distinct
keys in every object (Python's `dict` cannot hold duplicate keys). -/
theorem parse_wf : ∀ fuel : Nat,
    (∀ cs v r, parseValue fuel cs = some (v, r) → wfKeys v = true) ∧
    (∀ cs v r, parseObjStart fuel cs = some (v, r) → wfKeys v = true) ∧
    (∀ cs acc v r, (acc.map Prod.fst).Nodup → wfKeysFields acc = true →
      parseMembers fuel cs acc = some (v, r) → wfKeys v = true) ∧
    (∀ cs acc v r, wfKeysList acc = true →
      parseElems fuel cs acc = some (v, r) → wfKeys v = true) := by
  intro fuel
  induction fuel with
  | zero =>
    refine ⟨?_, ?_, ?_, ?_⟩ <;> intro cs
    · intro v r h
      simp [parseValue] at h
    · intro v r h
      simp [parseObjStart] at h
    · intro acc v r _ _ h
      simp [parseMembers] at h
    · intro acc v r _ h
      simp [parseElems] at h
  | succ f ih =>
    obtain ⟨ih1, ih2, ih3, ih4⟩ := ih
    refine ⟨?_, ?_, ?_, ?_⟩
    · intro cs v r h
      simp only [parseValue] at h
      split at h
      · exact absurd h (by simp)
      · split at h
        · exact ih2 _ v r h
        · split at h
          · split at h
            · split at h
              · injection h with h1
                injection h1 with h2 h3
                rw [← h2]
                decide
              · exact ih4 _ [] v r (by decide) h
            · exact absurd h (by simp)
          · split at h
            · split at h
              · next s r2 heq =>
                injection h with h1
                injection h1 with h2 h3
                rw [← h2]
                rfl
              · exact absurd h (by simp)
            · split at h
              · split at h
                · injection h with h1
                  injection h1 with h2 h3
                  rw [← h2]
                  decide
                · exact absurd h (by simp)
              · split at h
                · split at h
                  · injection h with h1
                    injection h1 with h2 h3
                    rw [← h2]
                    decide
                  · exact absurd h (by simp)
                · split at h
                  · split at h
                    · injection h with h1
                      injection h1 with h2 h3
                      rw [← h2]
                      decide
                    · exact absurd h (by simp)
                  · split at h
                    · injection h with h1
                      injection h1 with h2 h3
                      rw [← h2]
                      rfl
                    · exact absurd h (by simp)
    · intro cs v r h
      simp only [parseObjStart] at h
      split at h
      · split at h
        · injection h with h1
          injection h1 with h2 h3
          rw [← h2]
          decide
        · split at h
          · exact ih3 _ [] v r (by simp) (by decide) h
          · exact absurd h (by simp)
      · exact absurd h (by simp)
    · intro cs acc v r hn hw h
      simp only [parseMembers] at h
      split at h
      · exact absurd h (by simp)
      · split at h
        · split at h
          · exact absurd h (by simp)
          · next w r3 heq =>
            have hwfw : wfKeys w = true := ih1 _ w r3 heq
            split at h
            · split at h
              · exact ih3 _ _ v r (upsert_keys_nodup w hn) (upsert_wf hw hwfw) h
              · exact absurd h (by simp)
            · split at h
              · injection h with h1
                injection h1 with h2 h3
                rw [← h2]
                simp only [wfKeys, Bool.decide_and, Bool.and_eq_true, decide_eq_true_eq]
                exact ⟨upsert_keys_nodup w hn, upsert_wf hw hwfw⟩
              · exact absurd h (by simp)
            · exact absurd h (by simp)
        · exact absurd h (by simp)
    · intro cs acc v r ha h
      simp only [parseElems] at h
      split at h
      · exact absurd h (by simp)
      · next w r1 heq =>
        have hwfw : wfKeys w = true := ih1 _ w r1 heq
        split at h
        · exact ih4 _ _ v r (by
            rw [wfKeysList_iff]
            intro x hx
            rcases List.mem_cons.mp hx with rfl | hx2
            · exact hwfw
            · exact (wfKeysList_iff acc).mp ha x hx2) h
        · injection h with h1
          injection h1 with h2 h3
          rw [← h2]
          simp only [wfKeys]
          rw [wfKeysList_iff]
          intro x hx
          rw [List.mem_reverse] at hx
          rcases List.mem_cons.mp hx with rfl | hx2
          · exact hwfw
          · exact (wfKeysList_iff acc).mp ha x hx2
        · exact absurd h (by simp)

theorem digitChar_noSep (n : Nat) : isSepChar (digitChar n) = false := by
  match n with
  | 0 | 1 | 2 | 3 | 4 | 5 | 6 | 7 | 8 | 9 => decide
  | _ + 10 => exact (by decide : isSepChar '0' = false)

theorem hexChar_noSep (n : Nat) : isSepChar (hexChar n) = false := by
  match n with
  | 0 | 1 | 2 | 3 | 4 | 5 | 6 | 7 | 8 | 9 | 10 | 11 | 12 | 13 | 14 | 15 => decide
  | _ + 16 => exact (by decide : isSepChar '0' = false)

theorem intToDec_noSep {i : Int} {d : Char} (h : d ∈ intToDec i) :
    isSepChar d = false := by
  have hnat : ∀ m : Nat, d ∈ natToDec m → isSepChar d = false := by
    intro m hm
    rcases natToDecAux_mem hm with h2 | ⟨k, rfl⟩
    · simp at h2
    · exact digitChar_noSep k
  cases i with
  | ofNat m => exact hnat m h
  | negSucc m =>
    rcases List.mem_cons.mp h with rfl | h2
    · decide
    · exact hnat (m + 1) h2

theorem escapeChar_noSep {c d : Char} (hc : isSepChar c = false)
    (h : d ∈ escapeChar c) : isSepChar d = false := by
  simp only [escapeChar] at h
  split_ifs at h <;>
    simp only [List.mem_cons, List.not_mem_nil, or_false] at h
  · rcases h with rfl | rfl <;> decide
  · rcases h with rfl | rfl <;> decide
  · rcases h with rfl | rfl <;> decide
  · rcases h with rfl | rfl <;> decide
  · rcases h with rfl | rfl <;> decide
  · rcases h with rfl | rfl <;> decide
  · rcases h with rfl | rfl <;> decide
  · rcases h with rfl | rfl | rfl | rfl | rfl | rfl
    · decide
    · decide
    · decide
    · decide
    · exact hexChar_noSep _
    · exact hexChar_noSep _
  · subst h
    exact hc

theorem encodeString_noSep {s : String} {d : Char}
    (hs : s.data.all (fun c => ¬ isSepChar c) = true) (h : d ∈ encodeString s) :
    isSepChar d = false := by
  have hs2 : ∀ c ∈ s.data, isSepChar c = false := by
    intro c hc
    have := List.all_eq_true.mp hs c hc
    simpa using this
  simp only [encodeString] at h
  rcases List.mem_cons.mp h with rfl | h2
  · decide
  · rcases List.mem_append.mp h2 with h3 | h3
    · rcases List.mem_flatMap.mp h3 with ⟨c, hc, hdc⟩
      exact escapeChar_noSep (hs2 c hc) hdc
    · rcases List.mem_cons.mp h3 with rfl | h4
      · decide
      · simp at h4

mutual

theorem dumps_noSep (isep ksep : List Char)
    (hi : ∀ d ∈ isep, isSepChar d = false) (hk : ∀ d ∈ ksep, isSepChar d = false) :
    ∀ (v : Json), noLineSep v = true → ∀ d ∈ dumps isep ksep v, isSepChar d = false
  | .null, _, d, hd => by
    simp only [dumps, List.mem_cons, List.not_mem_nil, or_false] at hd
    rcases hd with rfl | rfl | rfl | rfl <;> decide
  | .bool b, _, d, hd => by
    cases b with
    | false =>
      simp only [dumps] at hd
      rw [if_neg (by simp)] at hd
      simp only [List.mem_cons, List.not_mem_nil, or_false] at hd
      rcases hd with rfl | rfl | rfl | rfl | rfl <;> decide
    | true =>
      simp only [dumps] at hd
      rw [if_pos trivial] at hd
      simp only [List.mem_cons, List.not_mem_nil, or_false] at hd
      rcases hd with rfl | rfl | rfl | rfl <;> decide
  | .num n, _, d, hd => intToDec_noSep hd
  | .str s, hv, d, hd => encodeString_noSep (by simpa [noLineSep] using hv) hd
  | .arr xs, hv, d, hd => by
    simp only [dumps] at hd
    rcases List.mem_cons.mp hd with rfl | h2
    · decide
    · rcases List.mem_append.mp h2 with h3 | h3
      · rcases mem_intercalate h3 with h4 | ⟨l, hl, hdl⟩
        · exact hi d h4
        · exact dumpsList_noSep isep ksep hi hk xs (by simpa [noLineSep] using hv)
            l hl d hdl
      · rcases List.mem_cons.mp h3 with rfl | h4
        · decide
        · simp at h4
  | .obj fs, hv, d, hd => by
    simp only [dumps] at hd
    rcases List.mem_cons.mp hd with rfl | h2
    · decide
    · rcases List.mem_append.mp h2 with h3 | h3
      · rcases mem_intercalate h3 with h4 | ⟨l, hl, hdl⟩
        · exact hi d h4
        · exact dumpsFields_noSep isep ksep hi hk fs (by simpa [noLineSep] using hv)
            l hl d hdl
      · rcases List.mem_cons.mp h3 with rfl | h4
        · decide
        · simp at h4

theorem dumpsList_noSep (isep ksep : List Char)
    (hi : ∀ d ∈ isep, isSepChar d = false) (hk : ∀ d ∈ ksep, isSepChar d = false) :
    ∀ (xs : List Json), noLineSepList xs = true →
      ∀ l ∈ dumpsList isep ksep xs, ∀ d ∈ l, isSepChar d = false
  | [], _, l, hl => by simp [dumpsList] at hl
  | x :: xs, hv, l, hl => by
    have hv2 : noLineSep x = true ∧ noLineSepList xs = true := by
      simpa [noLineSepList] using hv
    simp only [dumpsList] at hl
    rcases List.mem_cons.mp hl with rfl | h2
    · exact fun d hd => dumps_noSep isep ksep hi hk x hv2.1 d hd
    · exact dumpsList_noSep isep ksep hi hk xs hv2.2 l h2

theorem dumpsFields_noSep (isep ksep : List Char)
    (hi : ∀ d ∈ isep, isSepChar d = false) (hk : ∀ d ∈ ksep, isSepChar d = false) :
    ∀ (fs : List (String × Json)), noLineSepFields fs = true →
      ∀ l ∈ dumpsFields isep ksep fs, ∀ d ∈ l, isSepChar d = false
  | [], _, l, hl => by simp [dumpsFields] at hl
  | (k, v) :: fs, hv, l, hl => by
    have hv2 : (k.data.all (fun c => ¬ isSepChar c) = true ∧ noLineSep v = true) ∧
        noLineSepFields fs = true := by
      simpa [noLineSepFields] using hv
    simp only [dumpsFields] at hl
    rcases List.mem_cons.mp hl with rfl | h2
    · intro d hd
      rcases List.mem_append.mp hd with h3 | h3
      · rcases List.mem_append.mp h3 with h4 | h4
        · exact encodeString_noSep hv2.1.1 h4
        · exact hk d h4
      · exact dumps_noSep isep ksep hi hk v hv2.1.2 d h3
    · exact dumpsFields_noSep isep ksep hi hk fs hv2.2 l h2

end

/-- With no separator characters inside its strings, a serialized record
contains no `str.splitlines` boundary character at all. -/
theorem serializeOut_noBreak {v : Json} (hv : noLineSep v = true) :
    ∀ d ∈ serializeOut v, pyLineBreak d = false := by
  intro d hd
  have hge : 0x20 ≤ d.toNat := serializeOut_ge hd
  have hsep : isSepChar d = false :=
    dumps_noSep ", ".data ": ".data (by decide) (by decide) v hv d hd
  have hsep2 : ¬(d.toNat = 0x85 ∨ d.toNat = 0x2028 ∨ d.toNat = 0x2029) := by
    intro hor
    rw [show (isSepChar d) =
      decide (d.toNat = 0x85 ∨ d.toNat = 0x2028 ∨ d.toNat = 0x2029) from rfl] at hsep
    simp only [decide_eq_false_iff_not] at hsep
    exact hsep hor
  rw [Bool.eq_false_iff]
  intro hbr
  have hbr2 : d.toNat = 0x0A ∨ d.toNat = 0x0B ∨ d.toNat = 0x0C ∨ d.toNat = 0x0D ∨
      d.toNat = 0x1C ∨ d.toNat = 0x1D ∨ d.toNat = 0x1E ∨ d.toNat = 0x85 ∨
      d.toNat = 0x2028 ∨ d.toNat = 0x2029 := by
    simpa [pyLineBreak] using hbr
  push_neg at hsep2
  omega

theorem pySplitlinesAux_append {l : List Char}
    (hl : ∀ c ∈ l, pyLineBreak c = false) (rest acc : List Char) :
    pySplitlinesAux (l ++ '\n' :: rest) acc =
      String.mk (acc.reverse ++ l) :: pySplitlinesAux rest [] := by
  induction l generalizing acc with
  | nil =>
    rw [List.nil_append]
    rw [show pySplitlinesAux ('\n' :: rest) acc =
      if pyLineBreak '\n' then String.mk acc.reverse :: pySplitlinesAux rest []
      else pySplitlinesAux rest ('\n' :: acc) from rfl]
    rw [if_pos (by decide)]
    simp
  | cons c l ih =>
    have hc : pyLineBreak c = false := hl c (by simp)
    have hcr : ¬ c = '\x0d' := by
      intro he
      rw [he] at hc
      exact absurd hc (by decide)
    rw [List.cons_append, pySplitlinesAux.eq_def]
    split
    · rename_i heq
      exact absurd heq (by simp)
    · rename_i heq
      rw [List.cons.injEq] at heq
      exact absurd heq.1 hcr
    · rename_i heq
      rw [List.cons.injEq] at heq
      obtain ⟨h1, h2⟩ := heq
      subst h1
      subst h2
      rw [if_neg (by rw [hc]; exact Bool.false_ne_true)]
      rw [ih (fun d hd => hl d (by simp [hd]))]
      simp

theorem pySplitlines_join (recs : List Json)
    (h : ∀ r ∈ recs, ∀ d ∈ serializeOut r, pyLineBreak d = false) :
    pySplitlines (String.mk (recs.flatMap (fun r => serializeOut r ++ ['\n']))) =
      recs.map (fun r => String.mk (serializeOut r)) := by
  induction recs with
  | nil => rfl
  | cons r rest ih =>
    simp only [pySplitlines, List.flatMap_cons, List.map_cons]
    rw [List.append_assoc, List.singleton_append]
    rw [pySplitlinesAux_append (h r (by simp)) _ []]
    rw [show pySplitlinesAux (rest.flatMap (fun r => serializeOut r ++ ['\n'])) [] =
      pySplitlines (String.mk (rest.flatMap (fun r => serializeOut r ++ ['\n']))) from rfl]
    rw [ih (fun q hq => h q (by simp [hq]))]
    simp

theorem pyStripChars_noop {a b : Char} (ha : pyIsSpace a = false)
    (hb : pyIsSpace b = false) (mid : List Char) :
    pyStripChars (a :: (mid ++ [b])) = a :: (mid ++ [b]) := by
  simp only [pyStripChars]
  rw [List.dropWhile_cons, ha]
  simp only [Bool.false_eq_true, if_false]
  rw [show (a :: (mid ++ [b])).reverse = b :: (mid.reverse ++ [a]) from by simp]
  rw [List.dropWhile_cons, hb]
  simp only [Bool.false_eq_true, if_false]
  simp

theorem mk_cons_isEmpty (c : Char) (l : List Char) :
    (String.mk (c :: l)).isEmpty = false := by
  rw [Bool.eq_false_iff]
  intro h
  have h2 : String.mk (c :: l) = "" := (String.isEmpty_iff _).mp h
  have h3 : (String.mk (c :: l)).data = ("" : String).data := by rw [h2]
  simp at h3

theorem serializeOut_obj_shape (fs : List (String × Json)) :
    ∃ mid, serializeOut (Json.obj fs) = lbrace :: (mid ++ [rbrace]) :=
  ⟨List.intercalate ", ".data (dumpsFields ", ".data ": ".data fs), rfl⟩

theorem pyStrip_serialized_obj (fs : List (String × Json)) :
    pyStrip (String.mk (serializeOut (Json.obj fs))) =
      String.mk (serializeOut (Json.obj fs)) ∧
    (pyStrip (String.mk (serializeOut (Json.obj fs)))).isEmpty = false := by
  obtain ⟨mid, hmid⟩ := serializeOut_obj_shape fs
  rw [hmid]
  have h1 : pyIsSpace lbrace = false := by decide
  have h2 : pyIsSpace rbrace = false := by decide
  have hstrip : pyStrip (String.mk (lbrace :: (mid ++ [rbrace]))) =
      String.mk (lbrace :: (mid ++ [rbrace])) := by
    simp only [pyStrip]
    rw [pyStripChars_noop h1 h2 mid]
  refine ⟨hstrip, ?_⟩
  rw [hstrip]
  exact mk_cons_isEmpty _ _

theorem writtenRecords_all_fresh : ∀ (recs : List Json) (seen : List String),
    (recs.map stable_hash).Nodup → (∀ r ∈ recs, stable_hash r ∉ seen) →
    writtenRecords true recs seen = recs
  | [], _, _, _ => rfl
  | r :: rest, seen, hnd, hfresh => by
    rw [List.map_cons] at hnd
    obtain ⟨hr, hrest⟩ := List.nodup_cons.mp hnd
    simp only [writtenRecords, if_pos rfl, if_true]
    rw [if_neg (hfresh r (by simp))]
    congr 1
    apply writtenRecords_all_fresh rest (stable_hash r :: seen)
    · exact hrest
    · intro q hq
      simp only [List.mem_cons]
      push_neg
      refine ⟨?_, hfresh q (by simp [hq])⟩
      intro he
      exact hr (he ▸ List.mem_map_of_mem stable_hash hq)

theorem json_loads_wf {s : String} {v : Json} (h : json_loads s = some v) :
    wfKeys v = true := by
  simp only [json_loads] at h
  split at h
  · next w rest heq =>
    split at h
    · injection h with h1
      rw [← h1]
      exact (parse_wf (s.data.length + 1)).1 _ w rest heq
    · exact absurd h (by simp)
  · exact absurd h (by simp)

theorem normalize_line_records {v : Json} {n : Nat} {d : List Json} {r : Json}
    (hwf : wfKeys v = true) (hr : r ∈ (normalize_line v n d).1) :
    (∃ fs, r = Json.obj fs) ∧ wfKeys r = true := by
  cases v with
  | obj fs =>
    simp only [normalize_line, List.mem_singleton] at hr
    exact ⟨⟨fs, hr⟩, by rw [hr]; exact hwf⟩
  | arr xs =>
    simp only [normalize_line, normalizeElems_eq] at hr
    have hmem := List.mem_filter.mp hr
    have hwl : wfKeysList xs = true := by simpa [wfKeys] using hwf
    refine ⟨?_, (wfKeysList_iff xs).mp hwl r hmem.1⟩
    cases r with
    | obj fs => exact ⟨fs, rfl⟩
    | null => exact absurd hmem.2 (by simp [isDict])
    | bool b => exact absurd hmem.2 (by simp [isDict])
    | num m => exact absurd hmem.2 (by simp [isDict])
    | str s => exact absurd hmem.2 (by simp [isDict])
    | arr ys => exact absurd hmem.2 (by simp [isDict])
  | null => simp [normalize_line] at hr
  | bool b => simp [normalize_line] at hr
  | num m => simp [normalize_line] at hr
  | str s => simp [normalize_line] at hr

/-- Every record the classify phase produces is a dict with
pairwise-distinct keys at every level. -/
theorem records_of_phase (content : String) :
    ∀ r ∈ (normalizePhase content).1, (∃ fs, r = Json.obj fs) ∧ wfKeys r = true := by
  intro r hr
  simp only [normalizePhase] at hr
  split at hr
  · simp at hr
  · split at hr
    · next obj heq => exact normalize_line_records (json_loads_wf heq) hr
    · simp only [processLines] at hr
      rw [processLines_decomp, List.nil_append] at hr
      obtain ⟨nl, _, hnl⟩ := List.mem_flatMap.mp hr
      simp only [lineRecords] at hnl
      split at hnl
      · simp at hnl
      · split at hnl
        · simp at hnl
        · next v heq => exact normalize_line_records (json_loads_wf heq) hnl

theorem pyStrip_head_isEmpty {a : Char} (h : pyIsSpace a = false) (l : List Char) :
    (pyStrip (String.mk (a :: l))).isEmpty = false := by
  have hne : pyStripChars (a :: l) ≠ [] := by
    intro he
    simp only [pyStripChars] at he
    rw [List.dropWhile_cons, h] at he
    simp only [Bool.false_eq_true, if_false] at he
    rw [List.reverse_eq_nil_iff] at he
    have := List.dropWhile_eq_nil_iff.mp he a (by simp)
    rw [h] at this
    exact absurd this (by simp)
  rcases hsc : pyStripChars (a :: l) with _ | ⟨c, l2⟩
  · exact absurd hsc hne
  · simp only [pyStrip]
    rw [hsc]
    exact mk_cons_isEmpty c l2

theorem lineRecords_serialized {r : Json} (fs : List (String × Json))
    (hobj : r = Json.obj fs) (hwf : wfKeys r = true) (i : Nat) :
    lineRecords (i, String.mk (serializeOut r)) = [r] := by
  obtain ⟨hstrip, hne⟩ := pyStrip_serialized_obj fs
  rw [hstrip] at hne
  rw [hobj] at hwf ⊢
  simp only [lineRecords, hstrip, hne, Bool.false_eq_true, if_false]
  have hrt := (parse_rt ((serializeOut (Json.obj fs)).length + 1)).1 []
    (Json.obj fs) [] (by decide) hwf (by intro c r' h; exact absurd h (by simp))
    (by have := weight_le_length (Json.obj fs); omega)
  simp only [List.nil_append, List.append_nil] at hrt
  simp only [json_loads, hrt]
  rw [show skipWs ([] : List Char) = [] from rfl]
  simp only [List.isEmpty_nil, if_true]
  simp [normalize_line]

theorem flatMap_lineRecords : ∀ (l : List Json) (i : Nat),
    (∀ r ∈ l, (∃ fs, r = Json.obj fs) ∧ wfKeys r = true) →
    ((l.map (fun r => String.mk (serializeOut r))).enumFrom i).flatMap lineRecords = l
  | [], _, _ => rfl
  | r :: rest, i, h => by
    obtain ⟨⟨fs, hfs⟩, hwf⟩ := h r (by simp)
    simp only [List.map_cons, List.enumFrom_cons, List.flatMap_cons]
    rw [lineRecords_serialized fs hfs hwf i,
      flatMap_lineRecords rest (i + 1) (fun q hq => h q (by simp [hq]))]
    simp

/-- Running the classify phase on a previously-written output recovers
exactly the records that were written. -/
theorem phase_of_output (recs : List Json)
    (hobj : ∀ r ∈ recs, (∃ fs, r = Json.obj fs) ∧ wfKeys r = true)
    (hsep : ∀ r ∈ recs, noLineSep r = true) :
    (normalizePhase (String.mk (recs.flatMap (fun r => serializeOut r ++ ['\n'])))).1 =
      recs := by
  cases recs with
  | nil => rfl
  | cons r1 rest1 =>
    obtain ⟨⟨fs1, hfs1⟩, hwf1⟩ := hobj r1 (by simp)
    have hbreak : ∀ r ∈ r1 :: rest1, ∀ d ∈ serializeOut r, pyLineBreak d = false :=
      fun r hr => serializeOut_noBreak (hsep r hr)
    obtain ⟨mid, hmid⟩ := serializeOut_obj_shape fs1
    have hne : (pyStrip (String.mk
        ((r1 :: rest1).flatMap (fun r => serializeOut r ++ ['\n'])))).isEmpty = false := by
      rw [show ((r1 :: rest1).flatMap (fun r => serializeOut r ++ ['\n'])) =
          serializeOut r1 ++ '\n' :: rest1.flatMap (fun r => serializeOut r ++ ['\n'])
        from by simp [List.append_assoc]]
      rw [hfs1, hmid]
      rw [show (lbrace :: (mid ++ [rbrace])) ++ '\n' ::
          rest1.flatMap (fun r => serializeOut r ++ ['\n']) =
          lbrace :: ((mid ++ [rbrace]) ++ '\n' ::
            rest1.flatMap (fun r => serializeOut r ++ ['\n'])) from by simp]
      exact pyStrip_head_isEmpty (by decide) _
    simp only [normalizePhase, hne, Bool.false_eq_true, if_false]
    cases rest1 with
    | nil =>
      have hdata : ((r1 :: ([] : List Json)).flatMap (fun r => serializeOut r ++ ['\n'])) =
          serializeOut r1 ++ ['\n'] := by simp
      have hrt := (parse_rt ((serializeOut r1 ++ ['\n']).length + 1)).1 []
        r1 ['\n'] (by decide) hwf1
        (by intro c r' h; injection h with h1 _; rw [← h1]; decide)
        (by have := weight_le_length r1; simp only [List.length_append]; omega)
      simp only [List.nil_append] at hrt
      have hjl : json_loads (String.mk
          ((r1 :: ([] : List Json)).flatMap (fun r => serializeOut r ++ ['\n']))) =
          some r1 := by
        rw [hdata]
        simp only [json_loads, hrt]
        rw [show skipWs ['\n'] = [] from by decide]
        simp only [List.isEmpty_nil, if_true]
      simp only [hjl]
      rw [hfs1]
      simp [normalize_line]
    | cons r2 rest2 =>
      obtain ⟨⟨fs2, hfs2⟩, _⟩ := hobj r2 (by simp)
      obtain ⟨c2, t2, hct2, hcw2, _⟩ := serializeOut_cons r2
      have hdata : ((r1 :: r2 :: rest2).flatMap (fun r => serializeOut r ++ ['\n'])) =
          serializeOut r1 ++ '\n' ::
            (serializeOut r2 ++ '\n' ::
              rest2.flatMap (fun r => serializeOut r ++ ['\n'])) := by
        simp [List.append_assoc]
      have hrt := (parse_rt (((r1 :: r2 :: rest2).flatMap
          (fun r => serializeOut r ++ ['\n'])).length + 1)).1 []
        r1 ('\n' :: (serializeOut r2 ++ '\n' ::
          rest2.flatMap (fun r => serializeOut r ++ ['\n']))) (by decide) hwf1
        (by intro c r' h; injection h with h1 _; rw [← h1]; decide)
        (by
          have := weight_le_length r1
          rw [hdata]
          simp only [List.length_append, List.length_cons]
          omega)
      simp only [List.nil_append] at hrt
      have hsk : skipWs ('\n' :: (serializeOut r2 ++ '\n' ::
          rest2.flatMap (fun r => serializeOut r ++ ['\n']))) =
          c2 :: (t2 ++ '\n' :: rest2.flatMap (fun r => serializeOut r ++ ['\n'])) := by
        rw [skipWs_cons_ws (by decide), hct2, List.cons_append]
        exact skipWs_cons_not hcw2 _
      have hjn : json_loads (String.mk
          ((r1 :: r2 :: rest2).flatMap (fun r => serializeOut r ++ ['\n']))) = none := by
        simp only [json_loads]
        rw [hdata] at hrt ⊢
        rw [hrt]
        simp [hsk]
      simp only [hjn]
      rw [show pySplitlines (String.mk
          ((r1 :: r2 :: rest2).flatMap (fun r => serializeOut r ++ ['\n']))) =
        (r1 :: r2 :: rest2).map (fun r => String.mk (serializeOut r))
        from pySplitlines_join _ hbreak]
      simp only [processLines]
      rw [processLines_decomp]
      simp only [List.nil_append]
      exact flatMap_lineRecords _ 1 hobj

/-- C8 (amended: idempotence holds when the first run's records have
pairwise-distinct fingerprints and no string inside them contains
U+0085/U+2028/U+2029; duplicate records in the input refute the original
claim, and those separator characters make `str.splitlines` cut a written
line apart): rerunning with fresh state and dedupe enabled on the
non-deduplicated output yields written == normalized_seen and zero
duplicates. -/
theorem claim_C8 (content : String)
    (hdist : (((normalizePhase content).1).map stable_hash).Nodup)
    (hsep : ∀ r ∈ (normalizePhase content).1, noLineSep r = true) :
    (normalize_jsonl (normalize_jsonl content false).output true).stats.written =
      (normalize_jsonl (normalize_jsonl content false).output true).stats.normalized_seen ∧
    (normalize_jsonl (normalize_jsonl content false).output true).stats.duplicates_skipped
      = 0 := by
  obtain ⟨hout, -, -⟩ := normalize_jsonl_sinks content false
  rw [writtenRecords_nodedupe] at hout
  rw [hout]
  have hobj := records_of_phase content
  have hph := phase_of_output (normalizePhase content).1 hobj hsep
  rcases hp2 : normalizePhase (String.mk ((normalizePhase content).1.flatMap
      (fun r => serializeOut r ++ ['\n']))) with ⟨recs2, disc2⟩
  rw [hp2] at hph
  simp only at hph
  subst hph
  have hw := writeLoop_spec true (normalizePhase content).1 []
  rw [writtenRecords_all_fresh _ [] hdist (by intro r _; simp)] at hw
  simp only [normalize_jsonl, hp2, hw]
  simp

theorem claim_C8_counterexample :
    ¬ ∀ content : String,
        (normalize_jsonl (normalize_jsonl content false).output true).stats.written =
          (normalize_jsonl (normalize_jsonl content false).output true).stats.normalized_seen ∧
        (normalize_jsonl (normalize_jsonl content false).output
          true).stats.duplicates_skipped = 0 := by
  intro h
  exact absurd (h "\x7b\"a\": 1\x7d\n\x7b\"a\": 1\x7d").2 (by decide)

theorem claim_C8_witness :
    ((((normalizePhase "\x7b\"a\": 1\x7d\n\x7b\"b\": 2\x7d").1).map stable_hash).Nodup ∧
      (∀ r ∈ (normalizePhase "\x7b\"a\": 1\x7d\n\x7b\"b\": 2\x7d").1,
        noLineSep r = true)) ∧
    ((normalize_jsonl
        (normalize_jsonl "\x7b\"a\": 1\x7d\n\x7b\"b\": 2\x7d" false).output
        true).stats.written =
      (normalize_jsonl
        (normalize_jsonl "\x7b\"a\": 1\x7d\n\x7b\"b\": 2\x7d" false).output
        true).stats.normalized_seen) ∧
    (normalize_jsonl
      (normalize_jsonl "\x7b\"a\": 1\x7d\n\x7b\"b\": 2\x7d" false).output
      true).stats.duplicates_skipped = 0 :=
  ⟨⟨by decide, by decide⟩, claim_C8 _ (by decide) (by decide)⟩

end JsonlNormalizer
